import Mathlib

/-!
Verification of the media-production pipeline of this repository:
the asset-generation orchestrator and generation-client retry policy
(`src/api/src/services/videoAssetService.js`) and the scene-render /
concatenation engine (`src/api/src/services/ffmpegRenderService.js`).

The JavaScript sources are shallowly embedded: strings become `String`
(worked on through their `List Char` data), the regular expressions of
`sanitizePrompt` — whose alternatives are plain `\w+` words wrapped in
`\b` boundaries — become token-level operations on maximal word-character
runs, and the effectful orchestrator / render loops become pure functions
parameterised by oracles that decide the outcome of each external call
(generation service, S3 download, ffmpeg invocation).  Characters are
modelled at the ASCII level: `\w` is `[A-Za-z0-9_]` and `\s` is the six
ASCII whitespace characters.
-/

namespace VideoPipeline

/-- ASCII whitespace, the `\s` class used by `sanitizePrompt`'s
 final `.replace(/\s+/g, ' ').trim()` step (space, tab, LF, VT, FF, CR). -/
def isWsChar (c : Char) : Bool :=
  c == ' ' || c == Char.ofNat 9 || c == Char.ofNat 10 ||
  c == Char.ofNat 11 || c == Char.ofNat 12 || c == Char.ofNat 13

/-- The `\w` word-character class of the `\b`-delimited term regexes in
`sanitizePrompt`: ASCII letters, digits and underscore. -/
def isWordChar (c : Char) : Bool :=
  c.isAlphanum || c == '_'

/-- Non-whitespace, the complement class used to describe the maximal
runs that `.replace(/\s+/g, ' ').trim()` separates. -/
def isTokChar (c : Char) : Bool := !(isWsChar c)

theorem ws_not_word {c : Char} (h : isWsChar c = true) : isWordChar c = false := by
  simp only [isWsChar, Bool.or_eq_true, beq_iff_eq] at h
  rcases h with ⟨⟨⟨⟨h | h⟩ | h⟩ | h⟩ | h⟩ | h <;> subst h <;> decide

/-! ### Maximal runs of a character class

`chRuns p l` is the list of maximal runs of `p`-characters of `l`, in
order; non-`p` characters act as separators and are dropped.  This is the
structure on which both the word-boundary regexes and the whitespace
normalisation of `sanitizePrompt` operate. -/

/-- Close the pending run of a `runsCore` accumulator. -/
def packRuns : List Char × List (List Char) → List (List Char)
  | ([], rs) => rs
  | (c :: w, rs) => (c :: w) :: rs

/-- Fold from the right: first component is the run touching the left end
of the processed suffix, second the completed runs. -/
def runsCore (p : Char → Bool) : List Char → List Char × List (List Char)
  | [] => ([], [])
  | c :: cs =>
    if p c then ((runsCore p cs).1.cons c, (runsCore p cs).2)
    else ([], packRuns (runsCore p cs))

/-- Maximal runs of `p`-characters, in order. -/
def chRuns (p : Char → Bool) (l : List Char) : List (List Char) :=
  packRuns (runsCore p l)

theorem packRuns_cons (c : Char) (w : List Char) (rs : List (List Char)) :
    packRuns (c :: w, rs) = (c :: w) :: rs := rfl

theorem packRuns_nilFst (rs : List (List Char)) : packRuns ([], rs) = rs := rfl

theorem runsCore_spec (p : Char → Bool) :
    ∀ l : List Char, (runsCore p l).1 = l.takeWhile p ∧
      (runsCore p l).2 = chRuns p (l.dropWhile p) := by
  intro l
  induction l with
  | nil => exact ⟨rfl, rfl⟩
  | cons c cs ih =>
    by_cases hc : p c = true
    · simp only [runsCore, hc, if_pos, List.cons.injEq, List.takeWhile_cons,
        List.dropWhile_cons]
      exact ⟨by simp [List.cons, ih.1], by simp [ih.2]⟩
    · have hc' : p c = false := by simp_all
      constructor
      · simp [runsCore, hc', List.takeWhile_cons]
      · simp only [runsCore, hc', if_neg, Bool.false_eq_true, not_false_iff,
          List.dropWhile_cons, chRuns]
        simp [packRuns]

theorem chRuns_nil (p : Char → Bool) : chRuns p [] = [] := rfl

theorem chRuns_cons_neg (p : Char → Bool) {c : Char} (l : List Char)
    (hc : p c = false) : chRuns p (c :: l) = chRuns p l := by
  simp [chRuns, runsCore, hc, packRuns]

theorem chRuns_cons_pos (p : Char → Bool) {c : Char} (l : List Char)
    (hc : p c = true) :
    chRuns p (c :: l) = (c :: l.takeWhile p) :: chRuns p (l.dropWhile p) := by
  have h := runsCore_spec p l
  simp [chRuns, runsCore, hc, List.cons, h.1, h.2, packRuns]

theorem packRuns_mem {w cur : List Char} {rs : List (List Char)}
    (h : w ∈ packRuns (cur, rs)) : (cur ≠ [] ∧ w = cur) ∨ w ∈ rs := by
  cases cur with
  | nil => exact Or.inr h
  | cons c cs =>
    rcases List.mem_cons.mp h with h | h
    · exact Or.inl ⟨by simp, h⟩
    · exact Or.inr h

theorem runsCore_wf (p : Char → Bool) :
    ∀ l : List Char, (∀ c ∈ (runsCore p l).1, p c = true) ∧
      (∀ w ∈ (runsCore p l).2, w ≠ [] ∧ ∀ c ∈ w, p c = true) := by
  intro l
  induction l with
  | nil => exact ⟨by simp [runsCore], by simp [runsCore]⟩
  | cons c cs ih =>
    by_cases hc : p c = true
    · refine ⟨?_, ?_⟩
      · intro d hd
        simp only [runsCore, hc, if_pos, List.cons] at hd
        rcases List.mem_cons.mp hd with rfl | hd
        · exact hc
        · exact ih.1 d hd
      · intro w hw
        simp only [runsCore, hc, if_pos] at hw
        exact ih.2 w hw
    · have hc' : p c = false := by simp_all
      refine ⟨by simp [runsCore, hc'], ?_⟩
      intro w hw
      simp only [runsCore, hc', Bool.false_eq_true, if_neg, not_false_iff] at hw
      rcases packRuns_mem hw with ⟨hne, rfl⟩ | hw
      · exact ⟨hne, ih.1⟩
      · exact ih.2 w hw

theorem chRuns_wf (p : Char → Bool) (l : List Char) :
    ∀ w ∈ chRuns p l, w ≠ [] ∧ ∀ c ∈ w, p c = true := by
  intro w hw
  rcases packRuns_mem (by simpa [chRuns] using hw) with ⟨hne, rfl⟩ | hw2
  · exact ⟨hne, (runsCore_wf p l).1⟩
  · exact (runsCore_wf p l).2 w hw2

theorem takeWhile_append_sep (p : Char → Bool) {m : Char} (hm : p m = false) :
    ∀ (a b : List Char), (a ++ m :: b).takeWhile p = a.takeWhile p := by
  intro a b
  induction a with
  | nil => simp [List.takeWhile_cons, hm]
  | cons c a2 ih =>
    by_cases hc : p c = true <;> simp [List.takeWhile_cons, hc, ih]

theorem dropWhile_append_sep (p : Char → Bool) {m : Char} (hm : p m = false) :
    ∀ (a b : List Char), (a ++ m :: b).dropWhile p = a.dropWhile p ++ m :: b := by
  intro a b
  induction a with
  | nil => simp [List.dropWhile_cons, hm]
  | cons c a2 ih =>
    by_cases hc : p c = true <;> simp [List.dropWhile_cons, hc, ih]

theorem takeWhile_append_stop (p : Char → Bool) :
    ∀ (a b : List Char), (∃ x ∈ a, p x = false) →
      (a ++ b).takeWhile p = a.takeWhile p ∧
      (a ++ b).dropWhile p = a.dropWhile p ++ b := by
  intro a b
  induction a with
  | nil => rintro ⟨x, hx, -⟩; exact absurd hx (List.not_mem_nil x)
  | cons c a2 ih =>
    rintro ⟨x, hx, hxp⟩
    by_cases hc : p c = true
    · have hx2 : ∃ y ∈ a2, p y = false := by
        rcases List.mem_cons.mp hx with rfl | hx
        · exact absurd hc (by simp [hxp])
        · exact ⟨x, hx, hxp⟩
      have := ih hx2
      simp [List.takeWhile_cons, List.dropWhile_cons, hc, this.1, this.2]
    · have hc' : p c = false := by simp_all
      simp [List.takeWhile_cons, List.dropWhile_cons, hc']

theorem chRuns_append_sep (p : Char → Bool) {m : Char} (hm : p m = false) :
    ∀ (a b : List Char), chRuns p (a ++ m :: b) = chRuns p a ++ chRuns p b := by
  have main : ∀ (n : Nat) (a b : List Char), a.length ≤ n →
      chRuns p (a ++ m :: b) = chRuns p a ++ chRuns p b := by
    intro n
    induction n with
    | zero =>
      intro a b ha
      have hnil : a = [] := by
        cases a with
        | nil => rfl
        | cons c a2 => simp at ha
      subst hnil
      simp [chRuns_cons_neg p b hm, chRuns_nil]
    | succ n ih =>
      intro a b ha
      match a with
      | [] => simp [chRuns_cons_neg p b hm, chRuns_nil]
      | c :: a2 =>
        by_cases hc : p c = true
        · have hcons : (c :: a2) ++ m :: b = c :: (a2 ++ m :: b) := rfl
          rw [hcons, chRuns_cons_pos p _ hc, chRuns_cons_pos p _ hc,
            takeWhile_append_sep p hm, dropWhile_append_sep p hm]
          have hlen : (a2.dropWhile p).length ≤ n := by
            have h1 : (a2.dropWhile p).length ≤ a2.length :=
              (List.dropWhile_sublist _).length_le
            have h2 : a2.length ≤ n := by
              simpa using Nat.le_of_succ_le_succ ha
            omega
          rw [ih (a2.dropWhile p) b hlen]
          simp
        · have hc' : p c = false := by simp_all
          have hcons : (c :: a2) ++ m :: b = c :: (a2 ++ m :: b) := rfl
          rw [hcons, chRuns_cons_neg p _ hc', chRuns_cons_neg p _ hc']
          exact ih a2 b (by simpa using Nat.le_of_succ_le_succ ha)
  exact fun a b => main a.length a b le_rfl

theorem chRuns_all_pos (p : Char → Bool) {l : List Char} (hne : l ≠ [])
    (hall : ∀ c ∈ l, p c = true) : chRuns p l = [l] := by
  match l with
  | [] => exact absurd rfl hne
  | c :: cs =>
    rw [chRuns_cons_pos p cs (hall c (by simp))]
    rw [List.takeWhile_eq_self_iff.mpr fun x hx => hall x (by simp [hx])]
    rw [List.dropWhile_eq_nil_iff.mpr fun x hx => hall x (by simp [hx])]
    rfl

theorem chRuns_ne_nil (p : Char → Bool) {l : List Char} {c : Char}
    (hc : c ∈ l) (hpc : p c = true) : chRuns p l ≠ [] := by
  induction l with
  | nil => exact absurd hc (List.not_mem_nil c)
  | cons d l2 ih =>
    by_cases hd : p d = true
    · rw [chRuns_cons_pos p l2 hd]; simp
    · have hd' : p d = false := by simp_all
      rw [chRuns_cons_neg p l2 hd']
      rcases List.mem_cons.mp hc with rfl | hc2
      · exact absurd hpc (by simp [hd'])
      · exact ih hc2

/-! ### Joining runs with single spaces

`interSp` joins a token list with single spaces; it is the normal form of
`.replace(/\s+/g, ' ').trim()`, proved below (`normalizeWsL_eq_interSp`). -/

def interSp : List (List Char) → List Char
  | [] => []
  | [t] => t
  | t :: t2 :: ts => t ++ ' ' :: interSp (t2 :: ts)

theorem interSp_cons {ts : List (List Char)} (t : List Char) (hts : ts ≠ []) :
    interSp (t :: ts) = t ++ ' ' :: interSp ts := by
  match ts with
  | [] => exact absurd rfl hts
  | t2 :: ts2 => rfl

theorem interSp_append {a b : List (List Char)} (ha : a ≠ []) (hb : b ≠ []) :
    interSp (a ++ b) = interSp a ++ ' ' :: interSp b := by
  induction a with
  | nil => exact absurd rfl ha
  | cons t a2 ih =>
    cases a2 with
    | nil =>
      rw [List.singleton_append, interSp_cons t hb]
      rfl
    | cons t2 a3 =>
      have h2 : (t2 :: a3) ++ b ≠ [] := by simp
      rw [List.cons_append, interSp_cons t h2, ih (by simp),
        interSp_cons t (by simp)]
      simp

/-! ### Whitespace normalisation

`normalizeWsL` embeds the JavaScript
`sanitized.replace(/\s+/g, ' ').trim()` at the end of `sanitizePrompt`:
`collapseWs` replaces every maximal whitespace run by one space and
`trimWs` removes leading and trailing whitespace. -/

/-- One left-to-right pass of `.replace(/\s+/g, ' ')`; the flag records
whether the previous character was part of a whitespace run already
replaced by a space. -/
def collapseGo (prev : Bool) : List Char → List Char
  | [] => []
  | c :: cs =>
    if isWsChar c then
      if prev then collapseGo true cs else ' ' :: collapseGo true cs
    else c :: collapseGo false cs

/-- `.replace(/\s+/g, ' ')`. -/
def collapseWs (l : List Char) : List Char := collapseGo false l

/-- `.trim()`: drop whitespace from both ends. -/
def trimWs (l : List Char) : List Char :=
  ((l.dropWhile isWsChar).reverse.dropWhile isWsChar).reverse

/-- `.replace(/\s+/g, ' ').trim()`. -/
def normalizeWsL (l : List Char) : List Char := trimWs (collapseWs l)

/-- The maximal non-whitespace runs of a string. -/
def wsTokens (l : List Char) : List (List Char) := chRuns isTokChar l

def startsWs : List Char → Bool
  | [] => false
  | c :: _ => isWsChar c

def endsWs : List Char → Bool
  | [] => false
  | [c] => isWsChar c
  | _ :: c :: cs => endsWs (c :: cs)

theorem endsWs_cons2 (c d : Char) (cs : List Char) :
    endsWs (c :: d :: cs) = endsWs (d :: cs) := rfl

theorem chRuns_eq_nil_all (p : Char → Bool) {l : List Char}
    (h : chRuns p l = []) : ∀ c ∈ l, p c = false := by
  intro c hc
  by_contra hpc
  have hpc' : p c = true := by simp_all
  exact chRuns_ne_nil p hc hpc' h

theorem all_ws_endsWs : ∀ {l : List Char}, l ≠ [] →
    (∀ c ∈ l, isWsChar c = true) → endsWs l = true := by
  intro l
  induction l with
  | nil => intro h; exact absurd rfl h
  | cons c cs ih =>
    intro _ hall
    cases cs with
    | nil => simpa [endsWs] using hall c (by simp)
    | cons d cs2 =>
      rw [endsWs_cons2]
      exact ih (by simp) fun x hx => hall x (by simp [hx])

theorem collapseGo_spec : ∀ (l : List Char) (b : Bool),
    collapseGo b l =
      (if b = false ∧ startsWs l = true then [' '] else []) ++
      interSp (wsTokens l) ++
      (if endsWs l = true ∧ wsTokens l ≠ [] then [' '] else []) := by
  intro l
  induction l with
  | nil =>
    intro b
    simp [collapseGo, wsTokens, chRuns_nil, interSp, startsWs, endsWs]
  | cons c cs ih =>
    intro b
    by_cases hc : isWsChar c = true
    · have htok : isTokChar c = false := by simp [isTokChar, hc]
      have hTok : wsTokens (c :: cs) = wsTokens cs := chRuns_cons_neg _ cs htok
      have hgo : collapseGo b (c :: cs) =
          (if b then collapseGo true cs else ' ' :: collapseGo true cs) := by
        simp [collapseGo, hc]
      cases cs with
      | nil =>
        have h0 : chRuns isTokChar [c] = [] := by
          rw [chRuns_cons_neg _ _ htok]; rfl
        cases b <;>
          simp [hgo, collapseGo, wsTokens, h0, interSp, startsWs, endsWs, hc]
      | cons d cs2 =>
        rw [hgo, ih true, hTok, endsWs_cons2]
        cases b <;> simp [startsWs, hc]
    · have hc' : isWsChar c = false := by simp_all
      have htok : isTokChar c = true := by simp [isTokChar, hc']
      have hgo : collapseGo b (c :: cs) = c :: collapseGo false cs := by
        simp [collapseGo, hc']
      have hTok : wsTokens (c :: cs) =
          (c :: cs.takeWhile isTokChar) :: wsTokens (cs.dropWhile isTokChar) :=
        chRuns_cons_pos _ cs htok
      cases cs with
      | nil =>
        have h1 : chRuns isTokChar [c] = [[c]] := by
          rw [chRuns_cons_pos _ _ htok]; rfl
        simp [hgo, collapseGo, wsTokens, h1, interSp, startsWs, endsWs, hc']
      | cons d cs2 =>
        by_cases hd : isWsChar d = true
        · have hdtok : isTokChar d = false := by simp [isTokChar, hd]
          have htw : (d :: cs2).takeWhile isTokChar = [] := by
            simp [List.takeWhile_cons, hdtok]
          have hdw : (d :: cs2).dropWhile isTokChar = d :: cs2 := by
            simp [List.dropWhile_cons, hdtok]
          rw [hgo, ih false, hTok, htw, hdw, endsWs_cons2]
          cases htk : wsTokens (d :: cs2) with
          | nil =>
            have hend : endsWs (d :: cs2) = true := by
              refine all_ws_endsWs (by simp) ?_
              intro x hx
              have := chRuns_eq_nil_all isTokChar htk x hx
              simpa [isTokChar] using this
            simp [startsWs, hd, hend, htk, interSp, hc']
          | cons t ts =>
            have hne : wsTokens (d :: cs2) ≠ [] := by simp [htk]
            rw [interSp_cons [c] (by simp [htk])]
            cases he : endsWs (d :: cs2) <;>
              simp [startsWs, hd, htk, he, hc']
        · have hd' : isWsChar d = false := by simp_all
          have hdtok : isTokChar d = true := by simp [isTokChar, hd']
          have hTok2 : wsTokens (d :: cs2) =
              (d :: cs2.takeWhile isTokChar) ::
                wsTokens (cs2.dropWhile isTokChar) :=
            chRuns_cons_pos _ cs2 hdtok
          have htw : (d :: cs2).takeWhile isTokChar = d :: cs2.takeWhile isTokChar := by
            simp [List.takeWhile_cons, hdtok]
          have hdw : (d :: cs2).dropWhile isTokChar = cs2.dropWhile isTokChar := by
            simp [List.dropWhile_cons, hdtok]
          rw [hgo, ih false, hTok, htw, hdw, endsWs_cons2, hTok2]
          have hjoin : c :: interSp ((d :: cs2.takeWhile isTokChar) ::
              wsTokens (cs2.dropWhile isTokChar)) =
              interSp ((c :: d :: cs2.takeWhile isTokChar) ::
                wsTokens (cs2.dropWhile isTokChar)) := by
            cases hR : wsTokens (cs2.dropWhile isTokChar) with
            | nil => rfl
            | cons r rs =>
              rw [interSp_cons (d :: cs2.takeWhile isTokChar) (by simp),
                interSp_cons (c :: d :: cs2.takeWhile isTokChar) (by simp)]
              rfl
          cases he : endsWs (d :: cs2) <;>
            simp [startsWs, hd', hc', ← hjoin]

theorem tok_not_ws {c : Char} (h : isTokChar c = true) : isWsChar c = false := by
  simpa [isTokChar] using h

theorem interSp_reverse_head (toks : List (List Char))
    (wf : ∀ w ∈ toks, w ≠ [] ∧ ∀ c ∈ w, isTokChar c = true) (hne : toks ≠ []) :
    ∃ c r, (interSp toks).reverse = c :: r ∧ isWsChar c = false := by
  induction toks with
  | nil => exact absurd rfl hne
  | cons t ts ih =>
    obtain ⟨htne, hall⟩ := wf t (by simp)
    cases ts with
    | nil =>
      cases hrev : t.reverse with
      | nil => exact absurd (by simpa using hrev) htne
      | cons c r =>
        have hc : c ∈ t := by
          have hc0 : c ∈ t.reverse := by simp [hrev]
          simpa using hc0
        exact ⟨c, r, by simpa [interSp] using hrev, tok_not_ws (hall c hc)⟩
    | cons t2 ts2 =>
      obtain ⟨c, r, hrev, hws⟩ := ih (fun w hw => wf w (by simp [hw])) (by simp)
      refine ⟨c, r ++ ' ' :: t.reverse, ?_, hws⟩
      rw [interSp_cons t (by simp), List.reverse_append, List.reverse_cons,
        hrev]
      simp

theorem interSp_head (toks : List (List Char)) (t : List Char)
    (ts : List (List Char)) (htk : toks = t :: ts)
    (wf : ∀ w ∈ toks, w ≠ [] ∧ ∀ c ∈ w, isTokChar c = true) :
    ∃ c0 Y, interSp toks = c0 :: Y ∧ isWsChar c0 = false := by
  subst htk
  obtain ⟨htne, hall⟩ := wf t (by simp)
  cases t with
  | nil => exact absurd rfl htne
  | cons c0 t0 =>
    have h0 : isWsChar c0 = false := tok_not_ws (hall c0 (by simp))
    cases ts with
    | nil => exact ⟨c0, t0, rfl, h0⟩
    | cons t2 ts2 =>
      refine ⟨c0, t0 ++ ' ' :: interSp (t2 :: ts2), ?_, h0⟩
      rw [interSp_cons _ (by simp)]
      rfl

theorem trimWs_pad {X : List Char} {c0 cL : Char} {Y r : List Char}
    (hhead : X = c0 :: Y) (h0 : isWsChar c0 = false)
    (hrev : X.reverse = cL :: r) (hL : isWsChar cL = false)
    (lead trail : List Char) (hlead : ∀ x ∈ lead, isWsChar x = true)
    (htrail : ∀ x ∈ trail, isWsChar x = true) :
    trimWs (lead ++ X ++ trail) = X := by
  unfold trimWs
  have h1 : (lead ++ X ++ trail).dropWhile isWsChar = X ++ trail := by
    rw [List.append_assoc, List.dropWhile_append_of_pos hlead, hhead]
    simp [List.dropWhile_cons, h0]
  have h2 : List.dropWhile isWsChar (cL :: r) = cL :: r := by
    simp [List.dropWhile_cons, hL]
  rw [h1, List.reverse_append,
    List.dropWhile_append_of_pos (by intro x hx; exact htrail x (by simpa using hx)),
    hrev, h2, ← hrev, List.reverse_reverse]

theorem normalizeWsL_eq_interSp (l : List Char) :
    normalizeWsL l = interSp (wsTokens l) := by
  have hspec := collapseGo_spec l false
  have hnw : normalizeWsL l = trimWs (collapseGo false l) := rfl
  cases htk : wsTokens l with
  | nil =>
    rw [htk] at hspec
    rw [hnw, hspec]
    have hsp : isWsChar ' ' = true := by decide
    cases hs : startsWs l <;> simp [trimWs, interSp, List.dropWhile, hsp]
  | cons t ts =>
    have wf : ∀ w ∈ wsTokens l, w ≠ [] ∧ ∀ c ∈ w, isTokChar c = true :=
      chRuns_wf isTokChar l
    rw [htk] at hspec wf
    obtain ⟨c0, Y, hhead, h0⟩ := interSp_head (t :: ts) t ts rfl wf
    obtain ⟨cL, r, hrev, hL⟩ := interSp_reverse_head (t :: ts) wf (by simp)
    rw [hnw, hspec]
    exact trimWs_pad hhead h0 hrev hL _ _
      (by intro x hx; split at hx <;> simp_all; decide)
      (by intro x hx; split at hx <;> simp_all; decide)

/-! ### Word-boundary term removal

Each regex of `sanitizePrompt` level 1 has the shape
`/\b(term1|term2|...)\b/gi` with every alternative a plain `\w+` word, so
a match is exactly a maximal `\w`-run equal (case-insensitively) to one of
the terms; `replace(..., '')` deletes those runs and keeps everything
else.  `stripWords bad` embeds one such pass, with `bad` deciding whether
a maximal word run is one of the listed terms. -/

/-- Emit a completed word run: deleted when it matches the banned-term
predicate, kept verbatim otherwise. -/
def emitWord (bad : List Char → Bool) : List Char → List Char
  | [] => []
  | c :: w => if bad (c :: w) then [] else c :: w

/-- Right fold: first component is the word run touching the left end of
the processed suffix, second the already-rewritten remainder. -/
def stripCore (bad : List Char → Bool) : List Char → List Char × List Char
  | [] => ([], [])
  | c :: cs =>
    if isWordChar c then ((stripCore bad cs).1.cons c, (stripCore bad cs).2)
    else ([], c :: (emitWord bad (stripCore bad cs).1 ++ (stripCore bad cs).2))

/-- One `replace(/\b(...)\b/gi, '')` pass. -/
def stripWords (bad : List Char → Bool) (l : List Char) : List Char :=
  emitWord bad (stripCore bad l).1 ++ (stripCore bad l).2

theorem stripCore_spec (bad : List Char → Bool) :
    ∀ l : List Char, (stripCore bad l).1 = l.takeWhile isWordChar ∧
      (stripCore bad l).2 = stripWords bad (l.dropWhile isWordChar) := by
  intro l
  induction l with
  | nil => exact ⟨rfl, rfl⟩
  | cons c cs ih =>
    by_cases hc : isWordChar c = true
    · constructor
      · simp [stripCore, hc, List.takeWhile_cons, List.cons, ih.1]
      · simp [stripCore, hc, List.dropWhile_cons, ih.2]
    · have hc' : isWordChar c = false := by simp_all
      constructor
      · simp [stripCore, hc', List.takeWhile_cons]
      · simp only [stripCore, hc', Bool.false_eq_true, if_neg, not_false_iff,
          List.dropWhile_cons, stripWords]
        simp [emitWord]

theorem stripWords_nil (bad : List Char → Bool) : stripWords bad [] = [] := rfl

theorem stripWords_cons_neg (bad : List Char → Bool) {c : Char}
    (l : List Char) (hc : isWordChar c = false) :
    stripWords bad (c :: l) = c :: stripWords bad l := by
  simp [stripWords, stripCore, hc, emitWord]

theorem stripWords_cons_pos (bad : List Char → Bool) {c : Char}
    (l : List Char) (hc : isWordChar c = true) :
    stripWords bad (c :: l) =
      emitWord bad (c :: l.takeWhile isWordChar) ++
        stripWords bad (l.dropWhile isWordChar) := by
  have h := stripCore_spec bad l
  simp [stripWords, stripCore, hc, List.cons, h.1, h.2]

theorem dropWhile_head_false (p : Char → Bool) :
    ∀ (l : List Char) {e : Char} {l3 : List Char},
      l.dropWhile p = e :: l3 → p e = false := by
  intro l
  induction l with
  | nil => intro e l3 h; simp at h
  | cons c cs ih =>
    intro e l3 h
    by_cases hc : p c = true
    · exact ih (by simpa [List.dropWhile_cons, hc] using h)
    · have hc' : p c = false := by simp_all
      rw [List.dropWhile_cons, hc'] at h
      simp only [Bool.false_eq_true, if_neg, not_false_iff,
        List.cons.injEq] at h
      rw [← h.1]
      exact hc'

theorem chRuns_append_run (p : Char → Bool) {w : List Char} (hw : w ≠ [])
    (hall : ∀ c ∈ w, p c = true) {b : List Char}
    (htw : b.takeWhile p = []) (hdw : b.dropWhile p = b) :
    chRuns p (w ++ b) = w :: chRuns p b := by
  match w with
  | [] => exact absurd rfl hw
  | c :: w2 =>
    rw [List.cons_append, chRuns_cons_pos p _ (hall c (by simp)),
      List.takeWhile_append_of_pos (fun x hx => hall x (by simp [hx])),
      List.dropWhile_append_of_pos (fun x hx => hall x (by simp [hx])),
      htw, hdw]
    simp

theorem wordRuns_strip (bad : List Char → Bool) :
    ∀ l : List Char, chRuns isWordChar (stripWords bad l) =
      (chRuns isWordChar l).filter (fun w => !(bad w)) := by
  have main : ∀ (n : Nat) (l : List Char), l.length ≤ n →
      chRuns isWordChar (stripWords bad l) =
        (chRuns isWordChar l).filter (fun w => !(bad w)) := by
    intro n
    induction n with
    | zero =>
      intro l hl
      have hnil : l = [] := by cases l with
        | nil => rfl
        | cons c l2 => simp at hl
      subst hnil
      simp [stripWords_nil, chRuns_nil]
    | succ n ih =>
      intro l hl
      match l with
      | [] => simp [stripWords_nil, chRuns_nil]
      | c :: l2 =>
        have hlen2 : l2.length ≤ n := by simpa using Nat.le_of_succ_le_succ hl
        by_cases hc : isWordChar c = true
        · rw [stripWords_cons_pos bad l2 hc, chRuns_cons_pos _ l2 hc]
          have hdlen : (l2.dropWhile isWordChar).length ≤ n := by
            have := (List.dropWhile_sublist (l := l2) (p := isWordChar)).length_le
            omega
          by_cases hb : bad (c :: l2.takeWhile isWordChar) = true
          · have hemit : emitWord bad (c :: l2.takeWhile isWordChar) = [] := by
              simp [emitWord, hb]
            rw [hemit, List.nil_append, ih _ hdlen]
            simp [hb]
          · have hb' : bad (c :: l2.takeWhile isWordChar) = false := by simp_all
            have hemit : emitWord bad (c :: l2.takeWhile isWordChar) =
                c :: l2.takeWhile isWordChar := by
              simp [emitWord, hb']
            rw [hemit]
            have hsplit : chRuns isWordChar
                ((c :: l2.takeWhile isWordChar) ++
                  stripWords bad (l2.dropWhile isWordChar)) =
                (c :: l2.takeWhile isWordChar) ::
                  chRuns isWordChar (stripWords bad (l2.dropWhile isWordChar)) := by
              refine chRuns_append_run isWordChar (by simp) ?_ ?_ ?_
              · intro x hx
                rcases List.mem_cons.mp hx with rfl | hx
                · exact hc
                · exact List.mem_takeWhile_imp hx
              · cases hdr : l2.dropWhile isWordChar with
                | nil => simp [stripWords_nil]
                | cons e l3 =>
                  have he := dropWhile_head_false isWordChar l2 hdr
                  rw [stripWords_cons_neg bad l3 he]
                  simp [List.takeWhile_cons, he]
              · cases hdr : l2.dropWhile isWordChar with
                | nil => simp [stripWords_nil]
                | cons e l3 =>
                  have he := dropWhile_head_false isWordChar l2 hdr
                  rw [stripWords_cons_neg bad l3 he]
                  simp [List.dropWhile_cons, he]
            rw [hsplit, ih _ hdlen]
            simp [hb']
        · have hc' : isWordChar c = false := by simp_all
          rw [stripWords_cons_neg bad l2 hc', chRuns_cons_neg _ _ hc',
            chRuns_cons_neg _ l2 hc']
          exact ih l2 hlen2
  exact fun l => main l.length l le_rfl

theorem stripWords_id (bad : List Char → Bool) :
    ∀ l : List Char, (∀ w ∈ chRuns isWordChar l, bad w = false) →
      stripWords bad l = l := by
  have main : ∀ (n : Nat) (l : List Char), l.length ≤ n →
      (∀ w ∈ chRuns isWordChar l, bad w = false) → stripWords bad l = l := by
    intro n
    induction n with
    | zero =>
      intro l hl _
      have hnil : l = [] := by cases l with
        | nil => rfl
        | cons c l2 => simp at hl
      subst hnil
      rfl
    | succ n ih =>
      intro l hl hgood
      match l with
      | [] => rfl
      | c :: l2 =>
        have hlen2 : l2.length ≤ n := by simpa using Nat.le_of_succ_le_succ hl
        by_cases hc : isWordChar c = true
        · have hruns := chRuns_cons_pos isWordChar l2 hc
          have hw : bad (c :: l2.takeWhile isWordChar) = false := by
            refine hgood _ ?_
            rw [hruns]; simp
          have hemit : emitWord bad (c :: l2.takeWhile isWordChar) =
              c :: l2.takeWhile isWordChar := by
            simp [emitWord, hw]
          rw [stripWords_cons_pos bad l2 hc, hemit]
          have hdlen : (l2.dropWhile isWordChar).length ≤ n := by
            have := (List.dropWhile_sublist (l := l2) (p := isWordChar)).length_le
            omega
          have hrest : stripWords bad (l2.dropWhile isWordChar) =
              l2.dropWhile isWordChar := by
            refine ih _ hdlen ?_
            intro w hwmem
            refine hgood w ?_
            rw [hruns]
            exact List.mem_cons_of_mem _ hwmem
          rw [hrest, List.cons_append, List.takeWhile_append_dropWhile]
        · have hc' : isWordChar c = false := by simp_all
          rw [stripWords_cons_neg bad l2 hc']
          have : stripWords bad l2 = l2 := by
            refine ih l2 hlen2 ?_
            intro w hwmem
            refine hgood w ?_
            rwa [chRuns_cons_neg _ l2 hc']
          rw [this]
  exact fun l => main l.length l le_rfl

theorem wordRuns_interSp (toks : List (List Char))
    (wf : ∀ w ∈ toks, w ≠ [] ∧ ∀ c ∈ w, isTokChar c = true) :
    chRuns isWordChar (interSp toks) =
      (toks.map (chRuns isWordChar)).flatten := by
  induction toks with
  | nil => simp [interSp, chRuns_nil]
  | cons t ts ih =>
    cases ts with
    | nil => simp [interSp]
    | cons t2 ts2 =>
      rw [interSp_cons t (by simp),
        chRuns_append_sep isWordChar (by decide) t (interSp (t2 :: ts2)),
        ih (fun w hw => wf w (by simp [hw]))]
      simp

theorem wordRuns_eq_flatten :
    ∀ l : List Char, chRuns isWordChar l =
      ((wsTokens l).map (chRuns isWordChar)).flatten := by
  have main : ∀ (n : Nat) (l : List Char), l.length ≤ n →
      chRuns isWordChar l = ((wsTokens l).map (chRuns isWordChar)).flatten := by
    intro n
    induction n with
    | zero =>
      intro l hl
      have hnil : l = [] := by cases l with
        | nil => rfl
        | cons c l2 => simp at hl
      subst hnil
      simp [wsTokens, chRuns_nil]
    | succ n ih =>
      intro l hl
      match l with
      | [] => simp [wsTokens, chRuns_nil]
      | c :: l2 =>
        have hlen2 : l2.length ≤ n := by simpa using Nat.le_of_succ_le_succ hl
        by_cases hc : isTokChar c = true
        · have hTok := chRuns_cons_pos isTokChar l2 hc
          cases hdr : l2.dropWhile isTokChar with
          | nil =>
            have htwl : l2.takeWhile isTokChar = l2 := by
              have := List.takeWhile_append_dropWhile (p := isTokChar) (l := l2)
              rwa [hdr, List.append_nil] at this
            rw [wsTokens, hTok, hdr, htwl]
            simp [wsTokens, chRuns_nil]
          | cons e l3 =>
            have he : isTokChar e = false := dropWhile_head_false isTokChar l2 hdr
            have hews : isWsChar e = true := by simpa [isTokChar] using he
            have hewd : isWordChar e = false := ws_not_word hews
            have hsplitl : c :: l2 = (c :: l2.takeWhile isTokChar) ++ e :: l3 := by
              have := List.takeWhile_append_dropWhile (p := isTokChar) (l := l2)
              rw [hdr] at this
              rw [List.cons_append, this]
            rw [hsplitl,
              chRuns_append_sep isWordChar hewd (c :: l2.takeWhile isTokChar) l3]
            have hlen3 : l3.length ≤ n := by
              have h1 : (e :: l3).length ≤ l2.length := by
                rw [← hdr]
                exact (List.dropWhile_sublist (l := l2) (p := isTokChar)).length_le
              simp only [List.length_cons] at h1
              omega
            rw [ih l3 hlen3]
            have hws : wsTokens ((c :: l2.takeWhile isTokChar) ++ e :: l3) =
                (c :: l2.takeWhile isTokChar) :: wsTokens l3 := by
              rw [wsTokens, chRuns_append_sep isTokChar he _ l3]
              have hall : chRuns isTokChar (c :: l2.takeWhile isTokChar) =
                  [c :: l2.takeWhile isTokChar] := by
                refine chRuns_all_pos isTokChar (by simp) ?_
                intro x hx
                rcases List.mem_cons.mp hx with rfl | hx
                · exact hc
                · exact List.mem_takeWhile_imp hx
              rw [hall]
              rfl
            rw [hws]
            simp
        · have hc' : isTokChar c = false := by simp_all
          have hws : isWsChar c = true := by
            have := hc'
            simp only [isTokChar, Bool.not_eq_false'] at this
            exact this
          have hwd : isWordChar c = false := ws_not_word hws
          rw [chRuns_cons_neg _ l2 hwd]
          rw [show wsTokens (c :: l2) = wsTokens l2 from chRuns_cons_neg _ l2 hc']
          exact ih l2 hlen2
  exact fun l => main l.length l le_rfl

theorem wsTokens_interSp (toks : List (List Char))
    (wf : ∀ w ∈ toks, w ≠ [] ∧ ∀ c ∈ w, isTokChar c = true) :
    wsTokens (interSp toks) = toks := by
  induction toks with
  | nil => simp [interSp, wsTokens, chRuns_nil]
  | cons t ts ih =>
    obtain ⟨htne, hall⟩ := wf t (by simp)
    cases ts with
    | nil => exact chRuns_all_pos isTokChar htne hall
    | cons t2 ts2 =>
      rw [interSp_cons t (by simp), wsTokens,
        chRuns_append_sep isTokChar (by decide) t (interSp (t2 :: ts2)),
        chRuns_all_pos isTokChar htne hall]
      rw [show chRuns isTokChar (interSp (t2 :: ts2)) =
        wsTokens (interSp (t2 :: ts2)) from rfl]
      rw [ih (fun w hw => wf w (by simp [hw]))]
      rfl

/-! ### `sanitizePrompt`

Direct embedding of `VideoAssetService.sanitizePrompt(prompt, level)`:
level ≥ 1 strips the three banned-term regexes in order
(violence, sexual, hate), level ≥ 2 wraps the result in the fixed framing
sentence, level ≥ 3 replaces everything by the fixed generic prompt, and
the result is finally whitespace-normalised by
`.replace(/\s+/g, ' ').trim()`. -/

def violenceTerms : List String :=
  ["blood", "bloody", "gore", "gory", "violent", "violence", "death", "dead",
   "dying", "kill", "murder", "weapon", "gun", "knife", "attack", "war",
   "battle", "fight", "explosion", "bomb", "terrorist", "terror"]

def sexualTerms : List String :=
  ["nude", "naked", "sexual", "erotic", "explicit", "nsfw"]

def hateTerms : List String :=
  ["hate", "racist", "discrimination"]

/-- Case-insensitive match of a word run against one of the listed terms
(the `/i` flag of the term regexes). -/
def badIn (terms : List String) (w : List Char) : Bool :=
  terms.any (fun t => (w.map Char.toLower) == t.data)

/-- The three sequential `replace(/\b(...)\b/gi, '')` passes of level 1. -/
def removeTermsL (l : List Char) : List Char :=
  stripWords (badIn hateTerms)
    (stripWords (badIn sexualTerms) (stripWords (badIn violenceTerms) l))

/-- The level-2 framing template. -/
def level2Wrap (s : List Char) : List Char :=
  "Professional news broadcast style illustration: ".data ++ s ++
    ". Clean, corporate, appropriate for all audiences.".data

/-- The fixed level-3 generic prompt. -/
def level3Text : List Char :=
  ("Abstract professional illustration representing news and current " ++
   "events. Modern, clean design with blue and neutral tones. " ++
   "Suitable for news broadcast.").data

/-- `sanitizePrompt` on character lists. -/
def sanitizeL (p : List Char) (level : Nat) : List Char :=
  normalizeWsL
    (if 3 ≤ level then level3Text
     else if 2 ≤ level then level2Wrap (if 1 ≤ level then removeTermsL p else p)
     else if 1 ≤ level then removeTermsL p else p)

/-- `VideoAssetService.sanitizePrompt(prompt, level)`. -/
def sanitizePrompt (p : String) (level : Nat) : String :=
  String.mk (sanitizeL p.data level)

theorem wordRuns_normalize (y : List Char) :
    chRuns isWordChar (normalizeWsL y) = chRuns isWordChar y := by
  have h1 := wordRuns_interSp (wsTokens y)
    (fun w hw => chRuns_wf isTokChar y w hw)
  rw [normalizeWsL_eq_interSp, h1, ← wordRuns_eq_flatten]

theorem normalizeWsL_idem (z : List Char) :
    normalizeWsL (normalizeWsL z) = normalizeWsL z := by
  have h := wsTokens_interSp (wsTokens z)
    (fun w hw => chRuns_wf isTokChar z w hw)
  rw [normalizeWsL_eq_interSp z,
    normalizeWsL_eq_interSp (interSp (wsTokens z)), h]

theorem interSp_head_pre (t : List Char) (R : List (List Char)) :
    t <+: interSp (t :: R) := by
  cases R with
  | nil => exact List.prefix_refl t
  | cons r rs =>
    rw [interSp_cons t (by simp)]
    exact List.prefix_append t _

theorem interSp_ne_nil {X : List (List Char)} {x : List Char}
    {xs : List (List Char)} (hX : X = x :: xs) (hx : x ≠ []) :
    interSp X ≠ [] := by
  subst hX
  cases xs with
  | nil => simpa [interSp] using hx
  | cons y ys =>
    rw [interSp_cons x (by simp)]
    cases x with
    | nil => exact absurd rfl hx
    | cons c w => simp

theorem interSp_cons_prefix_mono {X Y : List (List Char)} (t : List Char)
    (wfX : ∀ w ∈ X, w ≠ []) (h : interSp X <+: interSp Y) :
    interSp (t :: X) <+: interSp (t :: Y) := by
  cases X with
  | nil =>
    exact (interSp_head_pre t Y)
  | cons x xs =>
    have hXne : interSp (x :: xs) ≠ [] :=
      interSp_ne_nil rfl (wfX x (by simp))
    have hYne : Y ≠ [] := by
      intro hY
      subst hY
      exact hXne (List.prefix_nil.mp h)
    rw [interSp_cons t (by simp), interSp_cons t hYne]
    exact (List.prefix_append_right_inj t).mpr
      (List.cons_prefix_cons.mpr ⟨rfl, h⟩)

theorem interSp_prefix_append {u : Char} (hu : isTokChar u = true)
    (suf2 : List Char) : ∀ s : List Char,
      interSp (wsTokens s) <+: interSp (wsTokens (s ++ u :: suf2)) := by
  have main : ∀ (n : Nat) (s : List Char), s.length ≤ n →
      interSp (wsTokens s) <+: interSp (wsTokens (s ++ u :: suf2)) := by
    intro n
    induction n with
    | zero =>
      intro s hs
      have hnil : s = [] := by cases s with
        | nil => rfl
        | cons c s2 => simp at hs
      subst hnil
      simp [wsTokens, chRuns_nil, interSp, List.nil_prefix]
    | succ n ih =>
      intro s hs
      match s with
      | [] => simp [wsTokens, chRuns_nil, interSp, List.nil_prefix]
      | c :: s2 =>
        have hlen2 : s2.length ≤ n := by simpa using Nat.le_of_succ_le_succ hs
        by_cases hc : isTokChar c = true
        · rw [show (c :: s2) ++ u :: suf2 = c :: (s2 ++ u :: suf2) from rfl,
            wsTokens, wsTokens, chRuns_cons_pos _ s2 hc,
            chRuns_cons_pos _ (s2 ++ u :: suf2) hc]
          cases hdr : s2.dropWhile isTokChar with
          | nil =>
            have hall2 : ∀ x ∈ s2, isTokChar x = true :=
              List.dropWhile_eq_nil_iff.mp hdr
            have htw2 : s2.takeWhile isTokChar = s2 :=
              List.takeWhile_eq_self_iff.mpr hall2
            have htwA : (s2 ++ u :: suf2).takeWhile isTokChar =
                s2 ++ u :: suf2.takeWhile isTokChar := by
              rw [List.takeWhile_append_of_pos hall2]
              simp [List.takeWhile_cons, hu]
            rw [htw2, htwA, chRuns_nil]
            rw [show interSp [c :: s2] = c :: s2 from rfl]
            refine List.IsPrefix.trans ?_ (interSp_head_pre _ _)
            exact List.cons_prefix_cons.mpr ⟨rfl, List.prefix_append s2 _⟩
          | cons e s3 =>
            have he : isTokChar e = false := dropWhile_head_false isTokChar s2 hdr
            have hmem : e ∈ s2 := by
              have h1 : e ∈ s2.dropWhile isTokChar := by simp [hdr]
              exact (List.dropWhile_sublist (l := s2) (p := isTokChar)).subset h1
            have hstop := takeWhile_append_stop isTokChar s2 (u :: suf2)
              ⟨e, hmem, he⟩
            rw [hstop.1, hstop.2, hdr]
            rw [show (e :: s3) ++ u :: suf2 = e :: (s3 ++ u :: suf2) from rfl]
            rw [show chRuns isTokChar (e :: s3) = chRuns isTokChar s3 from
              chRuns_cons_neg _ s3 he]
            rw [show chRuns isTokChar (e :: (s3 ++ u :: suf2)) =
              chRuns isTokChar (s3 ++ u :: suf2) from
              chRuns_cons_neg _ _ he]
            have hlen3 : s3.length ≤ n := by
              have h1 : (e :: s3).length ≤ s2.length := by
                rw [← hdr]
                exact (List.dropWhile_sublist (l := s2) (p := isTokChar)).length_le
              simp only [List.length_cons] at h1
              omega
            exact interSp_cons_prefix_mono _
              (fun w hw => (chRuns_wf isTokChar s3 w hw).1)
              (ih s3 hlen3)
        · have hc' : isTokChar c = false := by simp_all
          rw [show (c :: s2) ++ u :: suf2 = c :: (s2 ++ u :: suf2) from rfl,
            wsTokens, wsTokens, chRuns_cons_neg _ s2 hc',
            chRuns_cons_neg _ (s2 ++ u :: suf2) hc']
          exact ih s2 hlen2
  exact fun s => main s.length s le_rfl

theorem sanitizeL_one (x : List Char) :
    sanitizeL x 1 = normalizeWsL (removeTermsL x) := rfl

theorem sanitizeL_two (x : List Char) :
    sanitizeL x 2 = normalizeWsL (level2Wrap (removeTermsL x)) := rfl

theorem sanitizeL_three (x : List Char) :
    sanitizeL x 3 = normalizeWsL level3Text := rfl

theorem removeTermsL_norm_id (x : List Char) :
    removeTermsL (normalizeWsL (removeTermsL x)) = normalizeWsL (removeTermsL x) := by
  have hruns : ∀ w ∈ chRuns isWordChar (normalizeWsL (removeTermsL x)),
      badIn violenceTerms w = false ∧ badIn sexualTerms w = false ∧
        badIn hateTerms w = false := by
    intro w hw
    rw [wordRuns_normalize] at hw
    rw [removeTermsL, wordRuns_strip, wordRuns_strip, wordRuns_strip] at hw
    have h1 := List.mem_filter.mp hw
    have h2 := List.mem_filter.mp h1.1
    have h3 := List.mem_filter.mp h2.1
    exact ⟨by simpa using h3.2, by simpa using h2.2, by simpa using h1.2⟩
  rw [removeTermsL,
    stripWords_id _ _ (fun w hw => (hruns w hw).1),
    stripWords_id _ _ (fun w hw => (hruns w hw).2.1),
    stripWords_id _ _ (fun w hw => (hruns w hw).2.2)]

theorem sanitizeL_one_idem (x : List Char) :
    sanitizeL (sanitizeL x 1) 1 = sanitizeL x 1 := by
  rw [sanitizeL_one, sanitizeL_one, removeTermsL_norm_id, normalizeWsL_idem]

/-- The level-2 framing prefix without its trailing space. -/
def preHeadL : List Char :=
  "Professional news broadcast style illustration:".data

/-- The level-2 framing suffix without its leading period. -/
def sufTailL : List Char :=
  " Clean, corporate, appropriate for all audiences.".data

theorem sanitizeL_sub (x : List Char) :
    sanitizeL x 1 <:+: sanitizeL x 2 := by
  rw [sanitizeL_one, sanitizeL_two]
  have hsplit : level2Wrap (removeTermsL x) =
      preHeadL ++ ' ' :: (removeTermsL x ++
        ('.' :: sufTailL)) := by
    rw [level2Wrap,
      show ("Professional news broadcast style illustration: ").data =
        preHeadL ++ [' '] from rfl,
      show (". Clean, corporate, appropriate for all audiences.").data =
        '.' :: sufTailL from rfl]
    simp [List.append_assoc]
  rw [hsplit, normalizeWsL_eq_interSp (removeTermsL x),
    normalizeWsL_eq_interSp (preHeadL ++ ' ' ::
      (removeTermsL x ++ ('.' :: sufTailL)))]
  rw [show wsTokens (preHeadL ++ ' ' ::
      (removeTermsL x ++ ('.' :: sufTailL))) =
      wsTokens preHeadL ++ wsTokens (removeTermsL x ++ ('.' :: sufTailL)) from
    chRuns_append_sep isTokChar (by decide) preHeadL _]
  have hA : wsTokens preHeadL ≠ [] := by decide
  have hB : wsTokens (removeTermsL x ++ ('.' :: sufTailL)) ≠ [] :=
    chRuns_ne_nil isTokChar
      (List.mem_append_right _ (List.mem_cons_self '.' sufTailL)) (by decide)
  rw [interSp_append hA hB]
  have h1 : interSp (wsTokens (removeTermsL x)) <:+:
      interSp (wsTokens (removeTermsL x ++ ('.' :: sufTailL))) :=
    (interSp_prefix_append (by decide) sufTailL (removeTermsL x)).isInfix
  refine h1.trans ?_
  refine List.IsSuffix.isInfix ?_
  exact ⟨interSp (wsTokens preHeadL) ++ [' '], by simp⟩

/--
C6 — counterexample.  The claim asserts that each sanitization level is
idempotent, but level 2 is not: `sanitizePrompt` at level 2 always
prepends the framing sentence again, so applying it to its own output
wraps twice.  Witnessed at the concrete prompt "cat".
-/
theorem C6_sanitization_counterexample :
    sanitizePrompt (sanitizePrompt "cat" 2) 2 ≠ sanitizePrompt "cat" 2 ∧
    sanitizePrompt "cat" 2 = String.mk (normalizeWsL (level2Wrap "cat".data)) := by
  constructor
  · decide
  · rfl

/--
C6 (amended) — prompt sanitization is idempotent at levels 1 and 3 (but
not at level 2, where re-application wraps the framing sentence again);
the level-2 output contains the level-1 output as a contiguous substring;
and the level-3 output is one fixed constant string independent of the
input prompt.
-/
theorem C6_sanitization_levels :
    (∀ p : String, sanitizePrompt (sanitizePrompt p 1) 1 = sanitizePrompt p 1) ∧
    (∀ p : String, sanitizePrompt (sanitizePrompt p 3) 3 = sanitizePrompt p 3) ∧
    (∀ p q : String, sanitizePrompt p 3 = sanitizePrompt q 3) ∧
    (∀ p : String, (sanitizePrompt p 1).data <:+: (sanitizePrompt p 2).data) ∧
    (∃ p : String, sanitizePrompt (sanitizePrompt p 2) 2 ≠ sanitizePrompt p 2) := by
  refine ⟨?_, ?_, ?_, ?_, ?_⟩
  · intro p
    exact congrArg String.mk (sanitizeL_one_idem p.data)
  · intro p
    rfl
  · intro p q
    rfl
  · intro p
    exact sanitizeL_sub p.data
  · exact ⟨"cat", by decide⟩

/-! ### Asset generation orchestrator (`generateAllAssets`)

Each scene spawns one image task and (unless the voice key is "none") one
audio task.  Every task increments exactly one progress counter and then
persists a progress snapshot; the two fan-out batches run concurrently, so
a run is modelled as: any permutation `evI` of the per-scene image events,
joined, followed by either the bulk `audioCompleted := totalScenes`
assignment (voice "none") or any permutation `evA` of the per-scene audio
events.  `imgOk`/`audOk` are oracles deciding whether a scene's
generation (including its retries) ultimately succeeds; a scene whose
narration is empty or whitespace-only produces no audio call and counts
as completed (`generateAndStoreAudio` returns null). -/

structure Scene where
  sceneNumber : Nat
  imagePrompt : String
  narration : String
  deriving DecidableEq

structure AssetProgress where
  totalScenes : Nat
  imagesCompleted : Nat
  audioCompleted : Nat
  imagesFailed : Nat
  audioFailed : Nat
  deriving DecidableEq

inductive AEvent
  | imgDone (failed : Bool)
  | audDone (failed : Bool)
  deriving DecidableEq

/-- The single counter increment a finished per-scene task performs. -/
def stepEvent (p : AssetProgress) : AEvent → AssetProgress
  | .imgDone false => { p with imagesCompleted := p.imagesCompleted + 1 }
  | .imgDone true => { p with imagesFailed := p.imagesFailed + 1 }
  | .audDone false => { p with audioCompleted := p.audioCompleted + 1 }
  | .audDone true => { p with audioFailed := p.audioFailed + 1 }

def runEvents (p : AssetProgress) : List AEvent → AssetProgress
  | [] => p
  | e :: es => runEvents (stepEvent p e) es

/-- The progress object initialised before the fan-out. -/
def initProgress (n : Nat) : AssetProgress := ⟨n, 0, 0, 0, 0⟩

theorem initProgress_imagesCompleted (n : Nat) :
    (initProgress n).imagesCompleted = 0 := rfl

theorem initProgress_imagesFailed (n : Nat) :
    (initProgress n).imagesFailed = 0 := rfl

theorem initProgress_audioCompleted (n : Nat) :
    (initProgress n).audioCompleted = 0 := rfl

theorem initProgress_audioFailed (n : Nat) :
    (initProgress n).audioFailed = 0 := rfl

/-- `!narration || narration.trim().length === 0`. -/
def blankNarr (narr : String) : Bool := narr.data.all isWsChar

/-- `generationInputs.voice || 'neutral_male'`. -/
def voiceOf (raw : String) : String :=
  if raw == "" then "neutral_male" else raw

/-- One event per scene's image task: failed iff the oracle says the
generation (after retries) failed. -/
def imageEvents (imgOk : Scene → Bool) (scenes : List Scene) : List AEvent :=
  scenes.map fun s => .imgDone (!(imgOk s))

/-- One event per scene's audio task: blank narration counts as completed,
otherwise the oracle decides. -/
def audEvents (audOk : Scene → Bool) (scenes : List Scene) : List AEvent :=
  scenes.map fun s =>
    if blankNarr s.narration then AEvent.audDone false
    else AEvent.audDone (!(audOk s))

/-- Final progress of a run: image batch, then either the bulk
`audioCompleted = totalScenes` write (voice "none") or the audio batch. -/
def finalProgress (n : Nat) (voice : String) (evI evA : List AEvent) :
    AssetProgress :=
  if voice == "none" then
    { runEvents (initProgress n) evI with audioCompleted := n }
  else runEvents (runEvents (initProgress n) evI) evA

/-- The aggregate status computed and persisted after both batches settle. -/
def statusOf (p : AssetProgress) : String :=
  if p.imagesCompleted = 0 ∧ p.audioCompleted = 0 then "FAILED"
  else if 0 < p.imagesFailed ∨ 0 < p.audioFailed then "PARTIAL"
  else "COMPLETED"

/-- Number of `generateAudio` calls a run issues. -/
def audioGenCalls (voice : String) (scenes : List Scene) : Nat :=
  if voice == "none" then 0
  else (scenes.filter (fun s => !(blankNarr s.narration))).length

def isImgEv : AEvent → Bool
  | .imgDone _ => true
  | .audDone _ => false

def isImgOkEv : AEvent → Bool
  | .imgDone false => true
  | _ => false

def isImgFailEv : AEvent → Bool
  | .imgDone true => true
  | _ => false

def isAudEv : AEvent → Bool
  | .audDone _ => true
  | .imgDone _ => false

def isAudOkEv : AEvent → Bool
  | .audDone false => true
  | _ => false

def isAudFailEv : AEvent → Bool
  | .audDone true => true
  | _ => false

theorem runEvents_counts (evs : List AEvent) :
    ∀ p : AssetProgress,
      (runEvents p evs).totalScenes = p.totalScenes ∧
      (runEvents p evs).imagesCompleted =
        p.imagesCompleted + evs.countP isImgOkEv ∧
      (runEvents p evs).imagesFailed =
        p.imagesFailed + evs.countP isImgFailEv ∧
      (runEvents p evs).audioCompleted =
        p.audioCompleted + evs.countP isAudOkEv ∧
      (runEvents p evs).audioFailed =
        p.audioFailed + evs.countP isAudFailEv := by
  induction evs with
  | nil => intro p; simp [runEvents]
  | cons e es ih =>
    intro p
    have h := ih (stepEvent p e)
    match e with
    | .imgDone false =>
      simpa [runEvents, stepEvent, List.countP_cons, isImgOkEv, isImgFailEv,
        isAudOkEv, isAudFailEv, Nat.add_assoc, Nat.add_comm,
        Nat.add_left_comm] using h
    | .imgDone true =>
      simpa [runEvents, stepEvent, List.countP_cons, isImgOkEv, isImgFailEv,
        isAudOkEv, isAudFailEv, Nat.add_assoc, Nat.add_comm,
        Nat.add_left_comm] using h
    | .audDone false =>
      simpa [runEvents, stepEvent, List.countP_cons, isImgOkEv, isImgFailEv,
        isAudOkEv, isAudFailEv, Nat.add_assoc, Nat.add_comm,
        Nat.add_left_comm] using h
    | .audDone true =>
      simpa [runEvents, stepEvent, List.countP_cons, isImgOkEv, isImgFailEv,
        isAudOkEv, isAudFailEv, Nat.add_assoc, Nat.add_comm,
        Nat.add_left_comm] using h

theorem countP_img_split (evs : List AEvent) :
    evs.countP isImgOkEv + evs.countP isImgFailEv = evs.countP isImgEv := by
  induction evs with
  | nil => rfl
  | cons e es ih =>
    match e with
    | .imgDone false => simp [List.countP_cons, isImgOkEv, isImgFailEv, isImgEv]; omega
    | .imgDone true => simp [List.countP_cons, isImgOkEv, isImgFailEv, isImgEv]; omega
    | .audDone b =>
      cases b <;>
        simpa [List.countP_cons, isImgOkEv, isImgFailEv, isImgEv] using ih

theorem countP_aud_split (evs : List AEvent) :
    evs.countP isAudOkEv + evs.countP isAudFailEv = evs.countP isAudEv := by
  induction evs with
  | nil => rfl
  | cons e es ih =>
    match e with
    | .audDone false => simp [List.countP_cons, isAudOkEv, isAudFailEv, isAudEv]; omega
    | .audDone true => simp [List.countP_cons, isAudOkEv, isAudFailEv, isAudEv]; omega
    | .imgDone b =>
      cases b <;>
        simpa [List.countP_cons, isAudOkEv, isAudFailEv, isAudEv] using ih

theorem countP_imageEvents_img (imgOk : Scene → Bool) (scenes : List Scene) :
    (imageEvents imgOk scenes).countP isImgEv = scenes.length := by
  rw [show scenes.length = (imageEvents imgOk scenes).length by
    simp [imageEvents]]
  refine List.countP_eq_length.mpr ?_
  intro e he
  rcases List.mem_map.mp he with ⟨s, -, rfl⟩
  rfl

theorem countP_imageEvents_aud (imgOk : Scene → Bool) (scenes : List Scene) :
    (imageEvents imgOk scenes).countP isAudEv = 0 := by
  refine List.countP_eq_zero.mpr ?_
  intro e he
  rcases List.mem_map.mp he with ⟨s, -, rfl⟩
  simp [isAudEv]

theorem countP_audEvents_aud (audOk : Scene → Bool) (scenes : List Scene) :
    (audEvents audOk scenes).countP isAudEv = scenes.length := by
  rw [show scenes.length = (audEvents audOk scenes).length by
    simp [audEvents]]
  refine List.countP_eq_length.mpr ?_
  intro e he
  rcases List.mem_map.mp he with ⟨s, -, rfl⟩
  split <;> rfl

theorem countP_audEvents_img (audOk : Scene → Bool) (scenes : List Scene) :
    (audEvents audOk scenes).countP isImgEv = 0 := by
  refine List.countP_eq_zero.mpr ?_
  intro e he
  rcases List.mem_map.mp he with ⟨s, -, rfl⟩
  split <;> simp [isImgEv]

theorem countP_le_of_classifier {evs : List AEvent} {p q : AEvent → Bool}
    (h : ∀ e, p e = true → q e = true) : evs.countP p ≤ evs.countP q := by
  induction evs with
  | nil => exact Nat.le_refl 0
  | cons e es ih =>
    by_cases hp : p e = true
    · simp [List.countP_cons, hp, h e hp]; omega
    · have hp' : p e = false := by simp_all
      by_cases hq : q e = true <;>
        simp_all [List.countP_cons] <;> omega

theorem statusOf_spec (p : AssetProgress) :
    (statusOf p = "FAILED" ↔ p.imagesCompleted = 0 ∧ p.audioCompleted = 0) ∧
    (statusOf p = "PARTIAL" ↔
      ((0 < p.imagesFailed ∨ 0 < p.audioFailed) ∧
        ¬(p.imagesCompleted = 0 ∧ p.audioCompleted = 0))) ∧
    (statusOf p = "COMPLETED" ↔
      (¬(p.imagesCompleted = 0 ∧ p.audioCompleted = 0) ∧
        ¬(0 < p.imagesFailed ∨ 0 < p.audioFailed))) := by
  have hFP : ("FAILED" : String) ≠ "PARTIAL" := by decide
  have hFC : ("FAILED" : String) ≠ "COMPLETED" := by decide
  have hPC : ("PARTIAL" : String) ≠ "COMPLETED" := by decide
  by_cases h1 : p.imagesCompleted = 0 ∧ p.audioCompleted = 0
  · have hst : statusOf p = "FAILED" := by simp [statusOf, h1]
    rw [hst]
    simp [h1, hFP, hFC]
  · by_cases h2 : 0 < p.imagesFailed ∨ 0 < p.audioFailed
    · have hst : statusOf p = "PARTIAL" := by simp [statusOf, h1, h2]
      rw [hst]
      simp [h1, h2, Ne.symm hFP, hPC]
    · have hst : statusOf p = "COMPLETED" := by simp [statusOf, h1, h2]
      rw [hst]
      simp [h1, h2, Ne.symm hFC, Ne.symm hPC]

/--
C1 — for every completed asset-generation run (any interleaving of the
image and audio fan-out batches, any per-scene outcomes, any voice key),
the persisted aggregate status `statusOf` of the final progress is
`FAILED` iff `imagesCompleted = 0 ∧ audioCompleted = 0`; `PARTIAL` iff
some image or audio failed and the `FAILED` condition does not hold; and
`COMPLETED` otherwise.
-/
theorem C1_aggregate_status (scenes : List Scene) (voiceRaw : String)
    (imgOk audOk : Scene → Bool) (evI evA : List AEvent)
    (hI : evI.Perm (imageEvents imgOk scenes))
    (hA : evA.Perm (audEvents audOk scenes)) (p : AssetProgress)
    (hp : p = finalProgress scenes.length (voiceOf voiceRaw) evI evA) :
    (statusOf p = "FAILED" ↔ p.imagesCompleted = 0 ∧ p.audioCompleted = 0) ∧
    (statusOf p = "PARTIAL" ↔
      ((0 < p.imagesFailed ∨ 0 < p.audioFailed) ∧
        ¬(p.imagesCompleted = 0 ∧ p.audioCompleted = 0))) ∧
    (statusOf p = "COMPLETED" ↔
      (¬(p.imagesCompleted = 0 ∧ p.audioCompleted = 0) ∧
        ¬(0 < p.imagesFailed ∨ 0 < p.audioFailed))) :=
  statusOf_spec p

theorem C1_aggregate_status_witness :
    statusOf (finalProgress 1 (voiceOf "neutral_male")
      (imageEvents (fun _ => true) [⟨1, "p", "n"⟩])
      (audEvents (fun _ => true) [⟨1, "p", "n"⟩])) = "COMPLETED" := by
  have h := (C1_aggregate_status [⟨1, "p", "n"⟩] "neutral_male"
    (fun _ => true) (fun _ => true) _ _ (List.Perm.refl _) (List.Perm.refl _)
    _ rfl).2.2
  exact h.mpr (by decide)

theorem runEvents_sum_img (p : AssetProgress) (evs : List AEvent) :
    (runEvents p evs).imagesCompleted + (runEvents p evs).imagesFailed =
      p.imagesCompleted + p.imagesFailed + evs.countP isImgEv := by
  have h := runEvents_counts evs p
  have hs := countP_img_split evs
  omega

theorem runEvents_sum_aud (p : AssetProgress) (evs : List AEvent) :
    (runEvents p evs).audioCompleted + (runEvents p evs).audioFailed =
      p.audioCompleted + p.audioFailed + evs.countP isAudEv := by
  have h := runEvents_counts evs p
  have hs := countP_aud_split evs
  omega

/--
C2 — in every asset-generation run over a plan with `N ≥ 1` scenes, each
per-scene image event increments exactly one of
`imagesCompleted`/`imagesFailed`; at every progress snapshot (any prefix
of the image batch, and any prefix of the audio batch after it)
`imagesCompleted + imagesFailed ≤ N` and
`audioCompleted + audioFailed ≤ N`; and after the run completes
`imagesCompleted + imagesFailed = N` (with the audio counters still
bounded by `N`).
-/
theorem C2_progress_counters (scenes : List Scene) (voiceRaw : String)
    (imgOk audOk : Scene → Bool) (evI evA : List AEvent)
    (hN : 1 ≤ scenes.length)
    (hI : evI.Perm (imageEvents imgOk scenes))
    (hA : evA.Perm (audEvents audOk scenes)) :
    (∀ (p : AssetProgress), ∀ e ∈ evI,
      (stepEvent p e).imagesCompleted + (stepEvent p e).imagesFailed =
        p.imagesCompleted + p.imagesFailed + 1) ∧
    (∀ k : Nat,
      (runEvents (initProgress scenes.length) (evI.take k)).imagesCompleted +
        (runEvents (initProgress scenes.length) (evI.take k)).imagesFailed ≤
          scenes.length ∧
      (runEvents (initProgress scenes.length) (evI.take k)).audioCompleted +
        (runEvents (initProgress scenes.length) (evI.take k)).audioFailed ≤
          scenes.length) ∧
    (∀ k : Nat,
      (runEvents (runEvents (initProgress scenes.length) evI)
          (evA.take k)).imagesCompleted +
        (runEvents (runEvents (initProgress scenes.length) evI)
          (evA.take k)).imagesFailed ≤ scenes.length ∧
      (runEvents (runEvents (initProgress scenes.length) evI)
          (evA.take k)).audioCompleted +
        (runEvents (runEvents (initProgress scenes.length) evI)
          (evA.take k)).audioFailed ≤ scenes.length) ∧
    ((finalProgress scenes.length (voiceOf voiceRaw) evI evA).imagesCompleted +
      (finalProgress scenes.length (voiceOf voiceRaw) evI evA).imagesFailed =
        scenes.length) ∧
    ((finalProgress scenes.length (voiceOf voiceRaw) evI evA).audioCompleted +
      (finalProgress scenes.length (voiceOf voiceRaw) evI evA).audioFailed ≤
        scenes.length) := by
  have hcImg : evI.countP isImgEv = scenes.length := by
    rw [hI.countP_eq]
    exact countP_imageEvents_img imgOk scenes
  have hcImgAud : evI.countP isAudEv = 0 := by
    rw [hI.countP_eq]
    exact countP_imageEvents_aud imgOk scenes
  have hcAud : evA.countP isAudEv = scenes.length := by
    rw [hA.countP_eq]
    exact countP_audEvents_aud audOk scenes
  have hcAudImg : evA.countP isImgEv = 0 := by
    rw [hA.countP_eq]
    exact countP_audEvents_img audOk scenes
  refine ⟨?_, ?_, ?_, ?_, ?_⟩
  · intro p e he
    have hmem : e ∈ imageEvents imgOk scenes := hI.mem_iff.mp he
    rcases List.mem_map.mp hmem with ⟨s, -, rfl⟩
    cases himg : imgOk s <;> simp [stepEvent] <;> omega
  · intro k
    have h1 := runEvents_sum_img (initProgress scenes.length) (evI.take k)
    have h2 := runEvents_sum_aud (initProgress scenes.length) (evI.take k)
    have hle1 : (evI.take k).countP isImgEv ≤ evI.countP isImgEv :=
      (List.take_sublist k evI).countP_le isImgEv
    have hle2 : (evI.take k).countP isAudEv ≤ evI.countP isAudEv :=
      (List.take_sublist k evI).countP_le isAudEv
    simp only [initProgress_imagesCompleted, initProgress_imagesFailed,
      initProgress_audioCompleted, initProgress_audioFailed] at h1 h2
    omega
  · intro k
    have hbase1 := runEvents_sum_img (initProgress scenes.length) evI
    have hbase2 := runEvents_sum_aud (initProgress scenes.length) evI
    have h1 := runEvents_sum_img (runEvents (initProgress scenes.length) evI)
      (evA.take k)
    have h2 := runEvents_sum_aud (runEvents (initProgress scenes.length) evI)
      (evA.take k)
    have hle1 : (evA.take k).countP isImgEv ≤ evA.countP isImgEv :=
      (List.take_sublist k evA).countP_le isImgEv
    have hle2 : (evA.take k).countP isAudEv ≤ evA.countP isAudEv :=
      (List.take_sublist k evA).countP_le isAudEv
    simp only [initProgress_imagesCompleted, initProgress_imagesFailed,
      initProgress_audioCompleted, initProgress_audioFailed] at hbase1 hbase2
    omega
  · have hbase := runEvents_sum_img (initProgress scenes.length) evI
    simp only [initProgress_imagesCompleted, initProgress_imagesFailed] at hbase
    by_cases hv : voiceOf voiceRaw = "none"
    · have hvb : (voiceOf voiceRaw == "none") = true := by simp [hv]
      simp only [finalProgress, hvb, if_pos]
      omega
    · have hvb : (voiceOf voiceRaw == "none") = false := by simp [hv]
      simp only [finalProgress, hvb, Bool.false_eq_true, if_neg,
        not_false_iff]
      have h1 := runEvents_sum_img (runEvents (initProgress scenes.length) evI)
        evA
      omega
  · have hbase := runEvents_sum_aud (initProgress scenes.length) evI
    simp only [initProgress_audioCompleted, initProgress_audioFailed] at hbase
    have hfail := (runEvents_counts evI (initProgress scenes.length)).2.2.2.2
    have hfailAud : evI.countP isAudFailEv ≤ evI.countP isAudEv :=
      countP_le_of_classifier (fun e he => by
        cases e with
        | imgDone b => simp [isAudFailEv] at he
        | audDone b => rfl)
    by_cases hv : voiceOf voiceRaw = "none"
    · have hvb : (voiceOf voiceRaw == "none") = true := by simp [hv]
      simp only [finalProgress, hvb, if_pos]
      simp only [initProgress_audioFailed] at hfail
      omega
    · have hvb : (voiceOf voiceRaw == "none") = false := by simp [hv]
      simp only [finalProgress, hvb, Bool.false_eq_true, if_neg,
        not_false_iff]
      have h1 := runEvents_sum_aud (runEvents (initProgress scenes.length) evI)
        evA
      omega

theorem C2_progress_counters_witness :
    (finalProgress 1 (voiceOf "neutral_male")
        (imageEvents (fun _ => true) [⟨1, "p", "hi"⟩])
        (audEvents (fun _ => true) [⟨1, "p", "hi"⟩])).imagesCompleted +
      (finalProgress 1 (voiceOf "neutral_male")
        (imageEvents (fun _ => true) [⟨1, "p", "hi"⟩])
        (audEvents (fun _ => true) [⟨1, "p", "hi"⟩])).imagesFailed = 1 :=
  (C2_progress_counters [⟨1, "p", "hi"⟩] "neutral_male"
    (fun _ => true) (fun _ => true) _ _ (by decide)
    (List.Perm.refl _) (List.Perm.refl _)).2.2.2.1

/--
C7 — for every asset-generation run whose voice key is the sentinel
"none", zero `generateAudio` calls are issued and the final progress has
`audioCompleted = totalScenes` and `audioFailed = 0`.
-/
theorem C7_voice_none (scenes : List Scene) (voiceRaw : String)
    (imgOk : Scene → Bool) (evI evA : List AEvent)
    (hI : evI.Perm (imageEvents imgOk scenes))
    (hv : voiceRaw = "none") :
    audioGenCalls (voiceOf voiceRaw) scenes = 0 ∧
    (finalProgress scenes.length (voiceOf voiceRaw) evI evA).audioCompleted =
      scenes.length ∧
    (finalProgress scenes.length (voiceOf voiceRaw) evI evA).audioFailed = 0 := by
  subst hv
  have hvo : voiceOf "none" = "none" := by decide
  have hvb : (voiceOf "none" == "none") = true := by decide
  refine ⟨by simp [audioGenCalls, hvo], ?_, ?_⟩
  · simp [finalProgress, hvb]
  · simp only [finalProgress, hvb, if_pos]
    have hfail := (runEvents_counts evI (initProgress scenes.length)).2.2.2.2
    have hzero : evI.countP isAudFailEv = 0 := by
      rw [hI.countP_eq]
      refine List.countP_eq_zero.mpr ?_
      intro e he
      rcases List.mem_map.mp he with ⟨s, -, rfl⟩
      simp [isAudFailEv]
    simp only [initProgress_audioFailed] at hfail
    omega

theorem C7_voice_none_witness :
    audioGenCalls (voiceOf "none") [⟨1, "p", "hi"⟩] = 0 ∧
    (finalProgress 1 (voiceOf "none")
      (imageEvents (fun _ => true) [⟨1, "p", "hi"⟩]) []).audioCompleted = 1 ∧
    (finalProgress 1 (voiceOf "none")
      (imageEvents (fun _ => true) [⟨1, "p", "hi"⟩]) []).audioFailed = 0 :=
  C7_voice_none [⟨1, "p", "hi"⟩] "none" (fun _ => true) _ []
    (List.Perm.refl _) rfl

/-! ### Generation client retry policy (`generateImage`)

The loop `for (attempt = 0; attempt <= maxRetries; attempt++)` (default
`maxRetries = 3`) attempts `openai.images.generate` with the current
prompt.  On a content-filter error with `attempt < maxRetries` it retries
immediately with `sanitizePrompt(prompt, attempt + 1)` applied to the
*original* prompt; on any other error with `attempt < maxRetries` it
waits a fixed `setTimeout(..., 1000)` and retries with the prompt
unchanged; otherwise it throws.  `oracle n` classifies the outcome of the
`n`-th attempt's external call. -/

inductive GenOutcome
  | ok
  | contentFilter
  | transient
  deriving DecidableEq

structure GenAttempt where
  usedPrompt : String
  delayBefore : Nat
  deriving DecidableEq

structure ImageGenRun where
  attempts : List GenAttempt
  succeeded : Bool
  deriving DecidableEq

/-- The retry loop; `fuel` is `maxRetries + 1 - attempt`, `cur` the
current prompt and `delay` the backoff awaited before this attempt. -/
def genImageGo (oracle : Nat → GenOutcome) (orig : String)
    (maxRetries : Nat) : Nat → Nat → String → Nat → ImageGenRun
  | 0, _, _, _ => ⟨[], false⟩
  | fuel + 1, attempt, cur, delay =>
    match oracle attempt with
    | .ok => ⟨[⟨cur, delay⟩], true⟩
    | .contentFilter =>
      if attempt < maxRetries then
        ⟨⟨cur, delay⟩ :: (genImageGo oracle orig maxRetries fuel (attempt + 1)
            (sanitizePrompt orig (attempt + 1)) 0).attempts,
          (genImageGo oracle orig maxRetries fuel (attempt + 1)
            (sanitizePrompt orig (attempt + 1)) 0).succeeded⟩
      else ⟨[⟨cur, delay⟩], false⟩
    | .transient =>
      if attempt < maxRetries then
        ⟨⟨cur, delay⟩ :: (genImageGo oracle orig maxRetries fuel (attempt + 1)
            cur 1000).attempts,
          (genImageGo oracle orig maxRetries fuel (attempt + 1)
            cur 1000).succeeded⟩
      else ⟨[⟨cur, delay⟩], false⟩

/-- `VideoAssetService.generateImage({prompt, maxRetries})`, as the list
of attempts it performs (prompt used and backoff awaited before each). -/
def generateImage (oracle : Nat → GenOutcome) (orig : String)
    (maxRetries : Nat) : ImageGenRun :=
  genImageGo oracle orig maxRetries (maxRetries + 1) 0 orig 0

theorem genImageGo_length (oracle : Nat → GenOutcome) (orig : String)
    (maxRetries : Nat) : ∀ (fuel attempt : Nat) (cur : String) (delay : Nat),
      (genImageGo oracle orig maxRetries fuel attempt cur delay).attempts.length ≤
        fuel := by
  intro fuel
  induction fuel with
  | zero => intro attempt cur delay; simp [genImageGo]
  | succ fuel ih =>
    intro attempt cur delay
    match horc : oracle attempt with
    | .ok => simp [genImageGo, horc]
    | .contentFilter =>
      by_cases hlt : attempt < maxRetries
      · simp only [genImageGo, horc, hlt, if_pos, List.length_cons]
        exact Nat.succ_le_succ (ih _ _ _)
      · simp [genImageGo, horc, hlt]
    | .transient =>
      by_cases hlt : attempt < maxRetries
      · simp only [genImageGo, horc, hlt, if_pos, List.length_cons]
        exact Nat.succ_le_succ (ih _ _ _)
      · simp [genImageGo, horc, hlt]

theorem genImageGo_head (oracle : Nat → GenOutcome) (orig : String)
    (maxRetries : Nat) (fuel attempt : Nat) (cur : String) (delay : Nat)
    (hfuel : 0 < fuel) :
    (genImageGo oracle orig maxRetries fuel attempt cur delay).attempts.getD
      0 ⟨"", 0⟩ = ⟨cur, delay⟩ := by
  match fuel with
  | 0 => exact absurd hfuel (by simp)
  | fuel + 1 =>
    match horc : oracle attempt with
    | .ok => simp [genImageGo, horc]
    | .contentFilter =>
      by_cases hlt : attempt < maxRetries <;> simp [genImageGo, horc, hlt]
    | .transient =>
      by_cases hlt : attempt < maxRetries <;> simp [genImageGo, horc, hlt]

theorem genImageGo_transient_step (oracle : Nat → GenOutcome) (orig : String)
    (maxRetries : Nat) : ∀ (fuel attempt : Nat) (cur : String)
      (delay j : Nat),
      j + 1 < (genImageGo oracle orig maxRetries fuel attempt cur
        delay).attempts.length →
      oracle (attempt + j) = .transient →
      ((genImageGo oracle orig maxRetries fuel attempt cur
          delay).attempts.getD (j + 1) ⟨"", 0⟩).usedPrompt =
        ((genImageGo oracle orig maxRetries fuel attempt cur
          delay).attempts.getD j ⟨"", 0⟩).usedPrompt ∧
      ((genImageGo oracle orig maxRetries fuel attempt cur
          delay).attempts.getD (j + 1) ⟨"", 0⟩).delayBefore = 1000 := by
  intro fuel
  induction fuel with
  | zero =>
    intro attempt cur delay j hj horc
    simp [genImageGo] at hj
  | succ fuel ih =>
    intro attempt cur delay j hj horc
    match horcA : oracle attempt with
    | .ok =>
      rw [genImageGo] at hj ⊢
      simp only [horcA] at hj ⊢
      simp at hj
    | .contentFilter =>
      by_cases hlt : attempt < maxRetries
      · rw [genImageGo] at hj ⊢
        simp only [horcA, hlt, if_pos] at hj ⊢
        match j with
        | 0 =>
          rw [Nat.add_zero] at horc
          rw [horc] at horcA
          exact absurd horcA (by simp)
        | j + 1 =>
          have hj2 : j + 1 <
              (genImageGo oracle orig maxRetries fuel (attempt + 1)
                (sanitizePrompt orig (attempt + 1)) 0).attempts.length := by
            simpa using hj
          have horc2 : oracle ((attempt + 1) + j) = .transient := by
            rw [show (attempt + 1) + j = attempt + (j + 1) by omega]
            exact horc
          have := ih (attempt + 1) (sanitizePrompt orig (attempt + 1)) 0 j
            hj2 horc2
          simpa using this
      · rw [genImageGo] at hj
        simp only [horcA, hlt] at hj
        simp at hj
    | .transient =>
      by_cases hlt : attempt < maxRetries
      · rw [genImageGo] at hj ⊢
        simp only [horcA, hlt, if_pos] at hj ⊢
        match j with
        | 0 =>
          have hne : 0 <
              (genImageGo oracle orig maxRetries fuel (attempt + 1)
                cur 1000).attempts.length := by
            simpa using hj
          have hfuel : 0 < fuel := by
            have := genImageGo_length oracle orig maxRetries fuel
              (attempt + 1) cur 1000
            omega
          have hhead := genImageGo_head oracle orig maxRetries fuel
            (attempt + 1) cur 1000 hfuel
          simp only [List.getD, List.get?_eq_getElem?] at hhead
          simp [hhead]
        | j + 1 =>
          have hj2 : j + 1 <
              (genImageGo oracle orig maxRetries fuel (attempt + 1)
                cur 1000).attempts.length := by
            simpa using hj
          have horc2 : oracle ((attempt + 1) + j) = .transient := by
            rw [show (attempt + 1) + j = attempt + (j + 1) by omega]
            exact horc
          have := ih (attempt + 1) cur 1000 j hj2 horc2
          simpa using this
      · rw [genImageGo] at hj
        simp only [horcA, hlt] at hj
        simp at hj

/-- Outcome oracle with two transient failures then success. -/
def orcTT : Nat → GenOutcome := fun n => if n < 2 then .transient else .ok

/-- Outcome oracle with a content-filter block, then a transient failure,
then success. -/
def orcCF : Nat → GenOutcome := fun n =>
  if n = 0 then .contentFilter else if n = 1 then .transient else .ok

/--
C5 — counterexample.  With only transient failures the backoff before
every retry is the fixed 1000 ms, not `attempt × 1000` (the second retry
waits 1000 ms, not 2000 ms); and after a transient failure the next
attempt reuses the *current* prompt, which is the sanitized one — not the
original — when an earlier attempt was content-filtered.
-/
theorem C5_retry_counterexample :
    ((generateImage orcTT "a  b" 3).attempts.map
      (fun a => a.delayBefore) = [0, 1000, 1000]) ∧
    orcTT 0 = GenOutcome.transient ∧ orcTT 1 = GenOutcome.transient ∧
    ((generateImage orcTT "a  b" 3).attempts.getD 2
      ⟨"", 0⟩).delayBefore ≠ 2 * 1000 ∧
    ((generateImage orcCF "a  b" 3).attempts.map
      (fun a => a.usedPrompt) = ["a  b", "a b", "a b"]) ∧
    orcCF 1 = GenOutcome.transient ∧ ("a b" : String) ≠ "a  b" := by
  decide

/--
C5 (amended) — for every image generation, the total number of attempts
is at most `maxRetries + 1` (default 4); and whenever an attempt fails
with a transient (non-content-filter) error, the next attempt retries
with the prompt of the failed attempt unchanged after a fixed 1000 ms
backoff (not a linearly increasing one; the `attempt × 1000 ms` linear
backoff lives in `generateAudio`, not `generateImage`).
-/
theorem C5_retry_policy (oracle : Nat → GenOutcome) (orig : String)
    (maxRetries : Nat) :
    (generateImage oracle orig maxRetries).attempts.length ≤ maxRetries + 1 ∧
    (∀ j : Nat,
      j + 1 < (generateImage oracle orig maxRetries).attempts.length →
      oracle j = GenOutcome.transient →
      ((generateImage oracle orig maxRetries).attempts.getD (j + 1)
          ⟨"", 0⟩).usedPrompt =
        ((generateImage oracle orig maxRetries).attempts.getD j
          ⟨"", 0⟩).usedPrompt ∧
      ((generateImage oracle orig maxRetries).attempts.getD (j + 1)
          ⟨"", 0⟩).delayBefore = 1000) := by
  constructor
  · exact genImageGo_length oracle orig maxRetries (maxRetries + 1) 0 orig 0
  · intro j hj horc
    exact genImageGo_transient_step oracle orig maxRetries (maxRetries + 1)
      0 orig 0 j hj (by simpa using horc)

theorem C5_retry_policy_witness :
    (generateImage orcTT "x" 3).attempts.length ≤ 4 ∧
    ((generateImage orcTT "x" 3).attempts.getD 1 ⟨"", 0⟩).delayBefore =
      1000 :=
  ⟨(C5_retry_policy orcTT "x" 3).1,
    ((C5_retry_policy orcTT "x" 3).2 0 (by decide) (by decide)).2⟩

/-! ### Scene render engine (`FFmpegRenderService.renderVideo`)

The service loads the video with its image and audio asset records,
aborts if the plan is missing or no usable image exists, creates a
working directory, renders each scene sequentially (skipping scenes
without a usable image or audio record), concatenates, thumbnails,
uploads, and deletes the working directory on both the success path and
the catch path.  `RenderEnv` is the oracle for the external effects
(S3 downloads, the three ffmpeg invocations, the two uploads);
persistence and the filesystem are modelled as infallible collaborators.
`errorMessage = ""` models a null/absent error (the only falsy string in
the JavaScript truthiness test is the empty one). -/

structure AssetRec where
  sceneNumber : Nat
  s3Key : String
  errorMessage : String
  deriving DecidableEq

/-- `img.s3Key && !img.errorMessage`. -/
def usableRec (r : AssetRec) : Bool :=
  r.s3Key != "" && r.errorMessage == ""

structure VideoRec where
  planScenes : Option (List Scene)
  images : List AssetRec
  audRecs : List AssetRec
  deriving DecidableEq

/-- `audioMap.get(sceneNumber)` after the `forEach` that inserts every
usable record: the last usable record with that scene number wins. -/
def recFor (recs : List AssetRec) (n : Nat) : Option AssetRec :=
  ((recs.filter usableRec).filter (fun r => r.sceneNumber == n)).getLast?

inductive EffectKind
  | zoomIn
  | panRight
  | zoomOut
  | panLeft
  | kenBurns
  deriving DecidableEq

/-- `const effects = ['zoomIn', 'panRight', 'zoomOut', 'panLeft', 'kenBurns']`. -/
def effectCycle : List EffectKind :=
  [.zoomIn, .panRight, .zoomOut, .panLeft, .kenBurns]

/-- Modelled from the spec's words: the cycle order the spec lists —
zoom-in, zoom-out, pan-left, pan-right, combined zoom+pan — kept only to
compare against the source's `effectCycle`. -/
def specEffectCycle : List EffectKind :=
  [.zoomIn, .zoomOut, .panLeft, .panRight, .kenBurns]

inductive RenderFailure
  | planMissing
  | noUsableImages
  | downloadFailed (key : String)
  | clipFailed (scene : Nat)
  | noClips
  | concatFailed
  | thumbFailed
  | uploadFailed
  deriving DecidableEq

structure RenderEnv where
  downloadOk : String → Bool
  clipOk : Nat → Bool
  concatOk : Bool
  thumbOk : Bool
  uploadVideoOk : Bool
  uploadThumbOk : Bool

/-- One `createSceneClip` invocation: loop index, scene number and the
visual effect chosen for it. -/
structure SceneRenderEvent where
  loopIdx : Nat
  sceneNumber : Nat
  effect : EffectKind
  deriving DecidableEq

/-- The sequential scene loop: returns the `createSceneClip` invocations,
the scene numbers of the clips produced, and the first fatal error. -/
def renderLoop (env : RenderEnv) (video : VideoRec) :
    List Scene → Nat →
      List SceneRenderEvent × List Nat × Option RenderFailure
  | [], _ => ([], [], none)
  | scene :: rest, i =>
    match recFor video.images scene.sceneNumber with
    | none => renderLoop env video rest (i + 1)
    | some img =>
      match recFor video.audRecs scene.sceneNumber with
      | none => renderLoop env video rest (i + 1)
      | some aud =>
        if !(env.downloadOk img.s3Key) then
          ([], [], some (.downloadFailed img.s3Key))
        else if !(env.downloadOk aud.s3Key) then
          ([], [], some (.downloadFailed aud.s3Key))
        else if !(env.clipOk scene.sceneNumber) then
          ([⟨i, scene.sceneNumber,
              effectCycle.getD (i % effectCycle.length) .zoomIn⟩], [],
            some (.clipFailed scene.sceneNumber))
        else
          ((⟨i, scene.sceneNumber,
              effectCycle.getD (i % effectCycle.length) .zoomIn⟩ :
              SceneRenderEvent) :: (renderLoop env video rest (i + 1)).1,
            scene.sceneNumber :: (renderLoop env video rest (i + 1)).2.1,
            (renderLoop env video rest (i + 1)).2.2)

inductive ROutcome
  | ok
  | failed (e : RenderFailure)
  deriving DecidableEq

structure RenderResult where
  outcome : ROutcome
  workDirCreated : Bool
  workDirDeleted : Bool
  sceneEvents : List SceneRenderEvent
  clips : List Nat
  deriving DecidableEq

/-- The stages after the scene loop: the no-clips check, concatenation
(a plain byte copy — infallible here — for a single clip, an ffmpeg
concat otherwise), thumbnail extraction and the two uploads. -/
def finishRender (env : RenderEnv) (evs : List SceneRenderEvent)
    (clips : List Nat) : Option RenderFailure → RenderResult
  | some e => ⟨.failed e, true, true, evs, clips⟩
  | none =>
    if clips.isEmpty then ⟨.failed .noClips, true, true, evs, clips⟩
    else if !env.concatOk && decide (1 < clips.length) then
      ⟨.failed .concatFailed, true, true, evs, clips⟩
    else if !env.thumbOk then ⟨.failed .thumbFailed, true, true, evs, clips⟩
    else if !env.uploadVideoOk then
      ⟨.failed .uploadFailed, true, true, evs, clips⟩
    else if !env.uploadThumbOk then
      ⟨.failed .uploadFailed, true, true, evs, clips⟩
    else ⟨.ok, true, true, evs, clips⟩

/-- `FFmpegRenderService.renderVideo(videoId)` for a found video record. -/
def renderVideo (env : RenderEnv) (video : VideoRec) : RenderResult :=
  match video.planScenes with
  | none => ⟨.failed .planMissing, false, false, [], []⟩
  | some scenes =>
    if (video.images.filter usableRec).isEmpty then
      ⟨.failed .noUsableImages, false, false, [], []⟩
    else
      finishRender env (renderLoop env video scenes 0).1
        (renderLoop env video scenes 0).2.1
        (renderLoop env video scenes 0).2.2

theorem renderVideo_none (env : RenderEnv) (video : VideoRec)
    (hplan : video.planScenes = none) :
    renderVideo env video =
      ⟨.failed .planMissing, false, false, [], []⟩ := by
  unfold renderVideo
  rw [hplan]

theorem renderVideo_some (env : RenderEnv) (video : VideoRec)
    (scenes : List Scene) (hplan : video.planScenes = some scenes) :
    renderVideo env video =
      if (video.images.filter usableRec).isEmpty then
        ⟨.failed .noUsableImages, false, false, [], []⟩
      else
        finishRender env (renderLoop env video scenes 0).1
          (renderLoop env video scenes 0).2.1
          (renderLoop env video scenes 0).2.2 := by
  unfold renderVideo
  rw [hplan]

theorem finishRender_deleted (env : RenderEnv) (evs : List SceneRenderEvent)
    (clips : List Nat) (err : Option RenderFailure) :
    (finishRender env evs clips err).workDirDeleted = true := by
  cases err with
  | some e => rfl
  | none =>
    simp only [finishRender]
    split_ifs <;> rfl

theorem finishRender_events (env : RenderEnv) (evs : List SceneRenderEvent)
    (clips : List Nat) (err : Option RenderFailure) :
    (finishRender env evs clips err).sceneEvents = evs := by
  cases err with
  | some e => rfl
  | none =>
    simp only [finishRender]
    split_ifs <;> rfl

/-- Environment in which every external effect succeeds. -/
def envOK : RenderEnv :=
  ⟨fun _ => true, fun _ => true, true, true, true, true⟩

/-- One-scene video with a usable image and a usable audio record. -/
def vidOneScene : VideoRec :=
  ⟨some [⟨1, "p", "n"⟩], [⟨1, "k1", ""⟩], [⟨1, "a1", ""⟩]⟩

/-- One-scene video whose only image record failed. -/
def vidNoImages : VideoRec :=
  ⟨some [⟨1, "p", "n"⟩], [⟨1, "", "boom"⟩], []⟩

/-- One-scene video with a usable image but no audio records at all. -/
def vidNoAud : VideoRec :=
  ⟨some [⟨1, "p", "n"⟩], [⟨1, "k1", ""⟩], []⟩

/-- Two-scene video, all assets usable. -/
def vidTwoScenes : VideoRec :=
  ⟨some [⟨1, "p", "n"⟩, ⟨2, "q", "m"⟩],
    [⟨1, "k1", ""⟩, ⟨2, "k2", ""⟩],
    [⟨1, "a1", ""⟩, ⟨2, "a2", ""⟩]⟩

/-- Video with no plan and no asset records. -/
def vidNoPlan : VideoRec := ⟨none, [], []⟩

/--
C4 — whenever `renderVideo` created its working directory, the directory
is deleted before the call returns: on the success exit path and on every
failure exit path (a failure injected at any render stage via `env`).
-/
theorem C4_workspace_cleanup (env : RenderEnv) (video : VideoRec)
    (h : (renderVideo env video).workDirCreated = true) :
    (renderVideo env video).workDirDeleted = true := by
  cases hplan : video.planScenes with
  | none =>
    rw [renderVideo_none env video hplan] at h
    exact Bool.noConfusion h
  | some scenes =>
    rw [renderVideo_some env video scenes hplan]
    by_cases hempty : (video.images.filter usableRec).isEmpty = true
    · rw [renderVideo_some env video scenes hplan, if_pos hempty] at h
      exact Bool.noConfusion h
    · rw [if_neg hempty]
      exact finishRender_deleted env _ _ _

theorem C4_workspace_cleanup_witness :
    (renderVideo envOK vidOneScene).workDirCreated = true ∧
    (renderVideo envOK vidOneScene).workDirDeleted = true :=
  ⟨by decide, C4_workspace_cleanup envOK vidOneScene (by decide)⟩

/--
C3 (amended) — for every video that has a video plan and whose asset
records contain zero usable images, `renderVideo` fails with the
no-usable-assets error (`'No valid images to render'`) and never creates
a workspace directory.  (A video with zero usable images but no plan
fails earlier with the plan-missing error instead — see the
counterexample.)
-/
theorem C3_no_usable_images (env : RenderEnv) (video : VideoRec)
    (scenes : List Scene) (hplan : video.planScenes = some scenes)
    (hempty : video.images.filter usableRec = []) :
    (renderVideo env video).outcome =
      ROutcome.failed RenderFailure.noUsableImages ∧
    (renderVideo env video).workDirCreated = false := by
  rw [renderVideo_some env video scenes hplan]
  have hc : (video.images.filter usableRec).isEmpty = true := by
    rw [hempty]
    rfl
  rw [if_pos hc]
  exact ⟨rfl, rfl⟩

theorem C3_no_usable_images_witness :
    (renderVideo envOK vidNoImages).outcome =
      ROutcome.failed RenderFailure.noUsableImages ∧
    (renderVideo envOK vidNoImages).workDirCreated = false :=
  C3_no_usable_images envOK vidNoImages [⟨1, "p", "n"⟩] rfl (by decide)

/--
C3 — counterexample to the claim as stated.  A video with zero usable
images but no video plan does not raise the no-usable-assets error:
`renderVideo` throws `'Video plan not found'` first (it still creates no
workspace).
-/
theorem C3_no_usable_images_counterexample :
    vidNoPlan.images.filter usableRec = [] ∧
    (renderVideo envOK vidNoPlan).outcome =
      ROutcome.failed RenderFailure.planMissing ∧
    (renderVideo envOK vidNoPlan).outcome ≠
      ROutcome.failed RenderFailure.noUsableImages := by
  decide

theorem renderLoop_cons_some (env : RenderEnv) (video : VideoRec)
    (s : Scene) (rest : List Scene) (i : Nat) (img aud : AssetRec)
    (him : recFor video.images s.sceneNumber = some img)
    (haud : recFor video.audRecs s.sceneNumber = some aud) :
    renderLoop env video (s :: rest) i =
      if (!env.downloadOk img.s3Key) = true then
        ([], [], some (.downloadFailed img.s3Key))
      else if (!env.downloadOk aud.s3Key) = true then
        ([], [], some (.downloadFailed aud.s3Key))
      else if (!env.clipOk s.sceneNumber) = true then
        ([⟨i, s.sceneNumber,
            effectCycle.getD (i % effectCycle.length) .zoomIn⟩], [],
          some (.clipFailed s.sceneNumber))
      else
        ((⟨i, s.sceneNumber,
            effectCycle.getD (i % effectCycle.length) .zoomIn⟩ :
            SceneRenderEvent) :: (renderLoop env video rest (i + 1)).1,
          s.sceneNumber :: (renderLoop env video rest (i + 1)).2.1,
          (renderLoop env video rest (i + 1)).2.2) := by
  rw [renderLoop, him, haud]

theorem renderLoop_no_aud (env : RenderEnv) (video : VideoRec)
    (haud : video.audRecs.filter usableRec = []) :
    ∀ (scenes : List Scene) (i : Nat),
      renderLoop env video scenes i = ([], [], none) := by
  have hrec : ∀ n, recFor video.audRecs n = none := by
    intro n
    rw [recFor, haud]
    rfl
  intro scenes
  induction scenes with
  | nil => intro i; rfl
  | cons s rest ih =>
    intro i
    cases him : recFor video.images s.sceneNumber with
    | none => simp [renderLoop, him, ih]
    | some img => simp [renderLoop, him, hrec, ih]

/--
C9 — a video with no usable audio record (in particular one whose assets
were generated with voice key "none", which creates no audio records)
has every scene skipped by the render loop: zero clips are produced and
`renderVideo` fails with the no-clips error even when every scene has a
usable image; and `renderVideo` can never succeed without at least one
usable audio record.
-/
theorem C9_render_requires_usable_narration :
    (∀ (env : RenderEnv) (video : VideoRec) (scenes : List Scene),
      video.planScenes = some scenes → scenes ≠ [] →
      video.audRecs.filter usableRec = [] →
      (∀ s ∈ scenes, (recFor video.images s.sceneNumber).isSome) →
      (renderVideo env video).clips = [] ∧
      (renderVideo env video).outcome =
        ROutcome.failed RenderFailure.noClips) ∧
    (∀ (env : RenderEnv) (video : VideoRec),
      (renderVideo env video).outcome = ROutcome.ok →
      ∃ a ∈ video.audRecs, usableRec a = true) := by
  constructor
  · intro env video scenes hplan hne haud himg
    have hloop := renderLoop_no_aud env video haud scenes 0
    have hnonempty : (video.images.filter usableRec).isEmpty = false := by
      match scenes, hne with
      | s :: rest, _ =>
        have hisome := himg s (by simp)
        rcases Option.isSome_iff_exists.mp hisome with ⟨r, hr⟩
        have h1 : (video.images.filter usableRec).filter
            (fun q => q.sceneNumber == s.sceneNumber) ≠ [] := by
          intro h0
          rw [recFor, h0] at hr
          simp at hr
        rcases hfe : video.images.filter usableRec with _ | ⟨x, xs⟩
        · rw [hfe] at h1
          simp at h1
        · rfl
    rw [renderVideo_some env video scenes hplan]
    have hc : ¬((video.images.filter usableRec).isEmpty = true) := by
      simp [hnonempty]
    rw [if_neg hc, hloop]
    exact ⟨rfl, rfl⟩
  · intro env video hok
    by_contra hnone
    push_neg at hnone
    have haud : video.audRecs.filter usableRec = [] := by
      refine List.filter_eq_nil_iff.mpr ?_
      intro a ha
      simp [hnone a ha]
    cases hplan : video.planScenes with
    | none =>
      rw [renderVideo_none env video hplan] at hok
      exact absurd hok (by simp)
    | some scenes =>
      rw [renderVideo_some env video scenes hplan] at hok
      by_cases hempty : (video.images.filter usableRec).isEmpty = true
      · rw [if_pos hempty] at hok
        exact absurd hok (by simp)
      · rw [if_neg hempty, renderLoop_no_aud env video haud scenes 0] at hok
        exact ROutcome.noConfusion hok

theorem C9_render_requires_usable_narration_witness :
    (renderVideo envOK vidNoAud).clips = [] ∧
    (renderVideo envOK vidNoAud).outcome =
      ROutcome.failed RenderFailure.noClips :=
  C9_render_requires_usable_narration.1 envOK vidNoAud [⟨1, "p", "n"⟩] rfl
    (by decide) rfl (by decide)

theorem renderLoop_effect (env : RenderEnv) (video : VideoRec) :
    ∀ (scenes : List Scene) (i : Nat),
      ∀ ev ∈ (renderLoop env video scenes i).1,
        ev.effect = effectCycle.getD (ev.loopIdx % effectCycle.length)
          EffectKind.zoomIn := by
  intro scenes
  induction scenes with
  | nil => intro i ev h; simp [renderLoop] at h
  | cons s rest ih =>
    intro i ev hev
    cases him : recFor video.images s.sceneNumber with
    | none =>
      rw [renderLoop, him] at hev
      exact ih (i + 1) ev hev
    | some img =>
      cases haud : recFor video.audRecs s.sceneNumber with
      | none =>
        rw [renderLoop, him, haud] at hev
        exact ih (i + 1) ev hev
      | some aud =>
        rw [renderLoop_cons_some env video s rest i img aud him haud] at hev
        by_cases hd1 : (!env.downloadOk img.s3Key) = true
        · rw [if_pos hd1] at hev
          simp at hev
        · rw [if_neg hd1] at hev
          by_cases hd2 : (!env.downloadOk aud.s3Key) = true
          · rw [if_pos hd2] at hev
            simp at hev
          · rw [if_neg hd2] at hev
            by_cases hcl : (!env.clipOk s.sceneNumber) = true
            · rw [if_pos hcl] at hev
              have hev2 : ev = ⟨i, s.sceneNumber,
                  effectCycle.getD (i % effectCycle.length)
                    EffectKind.zoomIn⟩ := by
                simpa using hev
              subst hev2
              rfl
            · rw [if_neg hcl] at hev
              have hev' : ev ∈ (⟨i, s.sceneNumber,
                  effectCycle.getD (i % effectCycle.length)
                    EffectKind.zoomIn⟩ : SceneRenderEvent) ::
                  (renderLoop env video rest (i + 1)).1 := hev
              rcases List.mem_cons.mp hev' with rfl | hev2
              · rfl
              · exact ih (i + 1) ev hev2

/--
C10 (amended) — for every scene processed by the render loop, the visual
effect is `effects[i % effects.length]` where `i` is the scene's loop
index and the fixed ordered cycle is zoom-in, pan-right, zoom-out,
pan-left, combined zoom+pan (`kenBurns`) — note the order differs from
the spec's zoom-in, zoom-out, pan-left, pan-right, combined zoom+pan.
-/
theorem C10_effect_cycle (env : RenderEnv) (video : VideoRec) :
    effectCycle = [EffectKind.zoomIn, EffectKind.panRight,
      EffectKind.zoomOut, EffectKind.panLeft, EffectKind.kenBurns] ∧
    ∀ ev ∈ (renderVideo env video).sceneEvents,
      ev.effect = effectCycle.getD (ev.loopIdx % effectCycle.length)
        EffectKind.zoomIn := by
  refine ⟨rfl, ?_⟩
  intro ev hev
  cases hplan : video.planScenes with
  | none =>
    rw [renderVideo_none env video hplan] at hev
    simp at hev
  | some scenes =>
    rw [renderVideo_some env video scenes hplan] at hev
    by_cases hempty : (video.images.filter usableRec).isEmpty = true
    · rw [if_pos hempty] at hev
      simp at hev
    · rw [if_neg hempty, finishRender_events] at hev
      exact renderLoop_effect env video scenes 0 ev hev

/--
C10 — counterexample to the cycle order as claimed.  In a two-scene run
the scene at loop index 1 gets `panRight`, while the spec's ordered set
(zoom-in, zoom-out, pan-left, pan-right, zoom+pan) predicts `zoomOut`.
-/
theorem C10_effect_cycle_counterexample :
    (renderVideo envOK vidTwoScenes).sceneEvents.getD 1
      ⟨0, 0, EffectKind.zoomIn⟩ = ⟨1, 2, EffectKind.panRight⟩ ∧
    specEffectCycle.getD (1 % specEffectCycle.length) EffectKind.zoomIn =
      EffectKind.zoomOut ∧
    EffectKind.panRight ≠ EffectKind.zoomOut := by
  decide

theorem C10_effect_cycle_witness :
    ((renderVideo envOK vidTwoScenes).sceneEvents.getD 1
      ⟨0, 0, EffectKind.zoomIn⟩).effect =
      effectCycle.getD (1 % effectCycle.length) EffectKind.zoomIn :=
  (C10_effect_cycle envOK vidTwoScenes).2
    ((renderVideo envOK vidTwoScenes).sceneEvents.getD 1
      ⟨0, 0, EffectKind.zoomIn⟩) (by decide)

/-! ### Clip concatenation (`concatenateClips`)

One clip is copied byte-for-byte (`fs.copyFile`, no re-encode);
otherwise a `concat.txt` manifest is written with one
`file '<path>'` line per clip, joined by newlines, after replacing every
backslash by a forward slash and escaping every single quote as the
POSIX sequence quote-backslash-quote-quote, and ffmpeg is run with
`-f concat -c copy` (stream copy, lossless) over it. -/

def bslashChar : Char := Char.ofNat 92

def squoteChar : Char := Char.ofNat 39

def nlChar : Char := Char.ofNat 10

/-- `p.replace(/\\/g, '/')` — a single-character global replacement. -/
def normSlash (l : List Char) : List Char :=
  l.map fun c => if c = bslashChar then '/' else c

/-- `p.replace(/'/g, "'\\''")` — every single quote becomes the
four-character escape quote, backslash, quote, quote. -/
def escQuote : List Char → List Char
  | [] => []
  | c :: cs =>
    if c = squoteChar then
      squoteChar :: bslashChar :: squoteChar :: squoteChar :: escQuote cs
    else c :: escQuote cs

/-- One manifest line: `file '<escaped path>'`. -/
def manifestLine (p : List Char) : List Char :=
  "file ".data ++ squoteChar :: (escQuote (normSlash p) ++ [squoteChar])

/-- Join with a single newline (`Array.prototype.join('\n')`). -/
def joinSepNl : List (List Char) → List Char
  | [] => []
  | [t] => t
  | t :: t2 :: ts => t ++ nlChar :: joinSepNl (t2 :: ts)

/-- `clipPaths.map(p => ...).join('\n')`. -/
def manifestText (ps : List (List Char)) : List Char :=
  joinSepNl (ps.map manifestLine)

inductive ConcatAction
  | copySingle (src : List Char)
  | ffmpegConcat (manifest : List Char)
  deriving DecidableEq

/-- `concatenateClips(clipPaths, outputPath)`: what it does with the
clips — a byte copy when there is exactly one, otherwise a lossless
`-c copy` concat driven by the generated manifest. -/
def concatenateClips (ps : List (List Char)) : ConcatAction :=
  match ps with
  | [p] => .copySingle p
  | _ => .ffmpegConcat (manifestText ps)

def splitOnChar (sep : Char) : List Char → List (List Char)
  | [] => [[]]
  | c :: cs =>
    if c = sep then [] :: splitOnChar sep cs
    else
      match splitOnChar sep cs with
      | [] => [[c]]
      | h :: t => (c :: h) :: t

theorem splitOnChar_no_sep (sep : Char) :
    ∀ l : List Char, (∀ c ∈ l, c ≠ sep) → splitOnChar sep l = [l] := by
  intro l
  induction l with
  | nil => intro h; rfl
  | cons c cs ih =>
    intro h
    have hc : c ≠ sep := h c (by simp)
    rw [splitOnChar, if_neg hc, ih (fun x hx => h x (by simp [hx]))]

theorem splitOnChar_append_sep (sep : Char) :
    ∀ (a b : List Char), (∀ c ∈ a, c ≠ sep) →
      splitOnChar sep (a ++ sep :: b) = a :: splitOnChar sep b := by
  intro a b
  induction a with
  | nil => intro h; simp [splitOnChar]
  | cons c a2 ih =>
    intro h
    have hc : c ≠ sep := h c (by simp)
    rw [List.cons_append, splitOnChar, if_neg hc,
      ih (fun x hx => h x (by simp [hx]))]

theorem splitOnChar_joinSepNl :
    ∀ ls : List (List Char), ls ≠ [] →
      (∀ t ∈ ls, ∀ c ∈ t, c ≠ nlChar) →
      splitOnChar nlChar (joinSepNl ls) = ls := by
  intro ls
  induction ls with
  | nil => intro h; exact absurd rfl h
  | cons t ts ih =>
    intro _ hfree
    cases ts with
    | nil => exact splitOnChar_no_sep nlChar t (hfree t (by simp))
    | cons t2 ts2 =>
      rw [show joinSepNl (t :: t2 :: ts2) = t ++ nlChar ::
          joinSepNl (t2 :: ts2) from rfl,
        splitOnChar_append_sep nlChar t _ (hfree t (by simp)),
        ih (by simp) (fun u hu c hc => hfree u (by simp [hu]) c hc)]

theorem escQuote_mem {c : Char} :
    ∀ l : List Char, c ∈ escQuote l →
      c = squoteChar ∨ c = bslashChar ∨ c ∈ l := by
  intro l
  induction l with
  | nil => intro h; simp [escQuote] at h
  | cons d cs ih =>
    intro h
    by_cases hd : d = squoteChar
    · rw [escQuote, if_pos hd] at h
      simp only [List.mem_cons] at h
      rcases h with h1 | h1 | h1 | h1 | h
      · exact Or.inl h1
      · exact Or.inr (Or.inl h1)
      · exact Or.inl h1
      · exact Or.inl h1
      · rcases ih h with h1 | h1 | h1
        · exact Or.inl h1
        · exact Or.inr (Or.inl h1)
        · exact Or.inr (Or.inr (by simp [h1]))
    · rw [escQuote, if_neg hd] at h
      rcases List.mem_cons.mp h with h1 | h
      · exact Or.inr (Or.inr (by simp [h1]))
      · rcases ih h with h1 | h1 | h1
        · exact Or.inl h1
        · exact Or.inr (Or.inl h1)
        · exact Or.inr (Or.inr (by simp [h1]))

theorem manifestLine_no_nl (p : List Char) (hp : ∀ c ∈ p, c ≠ nlChar) :
    ∀ c ∈ manifestLine p, c ≠ nlChar := by
  intro c hc
  rw [manifestLine] at hc
  rcases List.mem_append.mp hc with h | h
  · have h5 : c = 'f' ∨ c = 'i' ∨ c = 'l' ∨ c = 'e' ∨ c = ' ' := by
      simpa using h
    rcases h5 with rfl | rfl | rfl | rfl | rfl <;> decide
  · rcases List.mem_cons.mp h with h1 | h
    · subst h1
      decide
    · rcases List.mem_append.mp h with h | h
      · rcases escQuote_mem (normSlash p) h with h1 | h1 | h2
        · subst h1
          decide
        · subst h1
          decide
        · rcases List.mem_map.mp h2 with ⟨d, hd, rfl⟩
          by_cases hdb : d = bslashChar
          · simp only [hdb, if_pos]
            decide
          · simp only [hdb, if_neg, not_false_iff]
            exact hp d hd
      · have h1 := List.mem_singleton.mp h
        subst h1
        decide

theorem normSlash_no_bslash (p : List Char) :
    ∀ c ∈ normSlash p, c ≠ bslashChar := by
  intro c hc
  rcases List.mem_map.mp hc with ⟨d, hd, rfl⟩
  by_cases hdb : d = bslashChar
  · simp only [hdb, if_pos]
    decide
  · simp only [hdb, if_neg, not_false_iff]
    exact hdb

theorem escQuote_ne_nil {d : Char} (q2 : List Char) :
    escQuote (d :: q2) ≠ [] := by
  by_cases hd : d = squoteChar <;> simp [escQuote, hd]

theorem escQuote_inj : ∀ p q : List Char, escQuote p = escQuote q → p = q := by
  intro p
  induction p with
  | nil =>
    intro q h
    cases q with
    | nil => rfl
    | cons d q2 => exact absurd h.symm (escQuote_ne_nil q2)
  | cons c p2 ih =>
    intro q h
    cases q with
    | nil => exact absurd h (escQuote_ne_nil p2)
    | cons d q2 =>
      by_cases hc : c = squoteChar <;> by_cases hd : d = squoteChar
      · rw [escQuote, if_pos hc, escQuote, if_pos hd] at h
        simp only [List.cons.injEq] at h
        rw [hc, hd, ih q2 h.2.2.2.2]
      · rw [escQuote, if_pos hc, escQuote, if_neg hd] at h
        simp only [List.cons.injEq] at h
        exact absurd (hc ▸ h.1.symm) hd
      · rw [escQuote, if_neg hc, escQuote, if_pos hd] at h
        simp only [List.cons.injEq] at h
        exact absurd (hd ▸ h.1) hc
      · rw [escQuote, if_neg hc, escQuote, if_neg hd] at h
        simp only [List.cons.injEq] at h
        rw [h.1, ih q2 h.2]

/--
C8 — `concatenateClips` with exactly one clip performs a byte copy (no
re-encode); with more than one clip it runs a lossless `-c copy` ffmpeg
concat over a manifest whose lines, in input order, are
`file '<path>'` with every backslash normalized to `/` and every single
quote escaped; splitting the manifest on newlines recovers exactly one
line per clip in input order (for newline-free paths), backslashes never
survive normalization, and quote escaping is injective (no manifest
injection can make two different paths collide).
-/
theorem C8_concatenate_clips :
    (∀ p : List Char, concatenateClips [p] = ConcatAction.copySingle p) ∧
    (∀ ps : List (List Char), 1 < ps.length →
      concatenateClips ps = ConcatAction.ffmpegConcat (manifestText ps)) ∧
    (∀ ps : List (List Char), ps ≠ [] →
      (∀ p ∈ ps, ∀ c ∈ p, c ≠ nlChar) →
      splitOnChar nlChar (manifestText ps) = ps.map manifestLine) ∧
    (∀ p : List Char, ∀ c ∈ normSlash p, c ≠ bslashChar) ∧
    (∀ p q : List Char, escQuote p = escQuote q → p = q) := by
  refine ⟨fun p => rfl, ?_, ?_, normSlash_no_bslash, escQuote_inj⟩
  · intro ps h
    match ps with
    | [] => simp at h
    | [p] => simp at h
    | p :: q :: rest => rfl
  · intro ps hne hfree
    rw [manifestText]
    refine splitOnChar_joinSepNl (ps.map manifestLine) (by simp [hne]) ?_
    intro t ht
    rcases List.mem_map.mp ht with ⟨p, hp, rfl⟩
    exact manifestLine_no_nl p (hfree p hp)

theorem C8_concatenate_clips_witness :
    concatenateClips [['a'], ['b']] =
      ConcatAction.ffmpegConcat (manifestText [['a'], ['b']]) ∧
    splitOnChar nlChar (manifestText [['a'], ['b']]) =
      ([['a'], ['b']].map manifestLine) :=
  ⟨C8_concatenate_clips.2.1 [['a'], ['b']] (by decide),
    C8_concatenate_clips.2.2.1 [['a'], ['b']] (by decide) (by decide)⟩

end VideoPipeline
